import Mathlib

/-!
# Verification of the GraphAnon core (graph anonymisation suite)

Shallow embedding of the GraphAnon repository (`src/graph.cpp`,
`src/label_distribution.cpp`, `src/unlabelled_graph/unlabelled_graph.cpp`,
`src/unlabelled_graph/unlabelled_graph.tpp`,
`src/labelled_graph/label_distribution.cpp`) and proofs about it.

Modelling conventions:
* C++ `float` quantities are modelled over `ℚ` (exact arithmetic).
* `uint32_t` quantities are modelled as `ℕ`; where the C code relies on
  wrap-around of unsigned arithmetic, the wrap is modelled explicitly with
  `% 2 ^ 32` and noted in a comment at the site.
* The process-wide random source (`rand`, `std::random_shuffle`) is modelled
  by oracle parameters: an explicit list/stream of drawn pairs, and a
  shuffle function that is assumed (as a hypothesis where needed) to return
  a rearrangement of its input.
* Unbounded `while` loops are modelled with an explicit fuel parameter and
  an `Option` result; `none` corresponds to the loop not having terminated
  within the supplied fuel.
-/

namespace GraphAnon

/-! ## LabelDistribution (`label_distribution.cpp`, both copies)

A `LabelDistribution` is its vector `frequencies_` of absolute frequencies;
the stored `sum_` always equals the sum of the frequencies (it is set that
way by both constructors and never mutated), so it is modelled as
`freqs.sum`. -/

/-- `#define LD_INCOMPARABLE -1` from `label_distribution.h`. -/
def LD_INCOMPARABLE : ℚ := -1

/-- `LabelDistribution::get_frequency`: `frequencies_[pos]/sum_`, or `0` when
`sum_ == 0` or `pos` is out of range (guard `pos >= frequencies_.size()` in
the `labelled_graph` copy; all in-range behaviour is identical in the two
copies). -/
def get_frequency (freqs : List ℕ) (pos : ℕ) : ℚ :=
  if pos ≥ freqs.length ∨ freqs.sum = 0 then 0
  else (freqs.getD pos 0 : ℚ) / (freqs.sum : ℚ)

/-- `LabelDistribution::distance`: sum of absolute differences of relative
frequencies over indices `0 .. my_length - 2`; `LD_INCOMPARABLE` when the
lengths differ.  The loop accumulator is modelled by a `foldl`; the branch
`label_distance > 0 ? label_distance : -1 * label_distance` is kept as in
the source. -/
def distance (self another : List ℕ) : ℚ :=
  if self.length ≠ another.length then LD_INCOMPARABLE
  else
    (List.range (self.length - 1)).foldl
      (fun acc i =>
        let label_distance := get_frequency self i - get_frequency another i
        acc + (if label_distance > 0 then label_distance else -1 * label_distance))
      0

/-- `LabelDistribution::get_deficiencies`: walks all labels accumulating the
bitmask of labels in which `self` is deficient relative to `another` and the
total absolute difference; returns `0` when that total is `< alpha`.
`cur_bit` is a `uint32_t` that starts at `1` and doubles every iteration, so
at index `i` it equals `2 ^ i % 2 ^ 32` (it wraps to `0` from `i = 32` on). -/
def get_deficiencies (self another : List ℕ) (alpha : ℚ) : ℕ :=
  let r := (List.range self.length).foldl
    (fun (acc : ℕ × ℚ) i =>
      let pairwise_diff := get_frequency another i - get_frequency self i
      if pairwise_diff > 0 then (acc.1 ||| (2 ^ i % 2 ^ 32), acc.2 + pairwise_diff)
      else (acc.1, acc.2 - pairwise_diff))
    (0, 0)
  if r.2 < alpha then 0 else r.1

/-! ## UnlabelledGraph (`unlabelled_graph.cpp` / `.tpp`)

The graph store is `n_` (vertex count), `m_` (edge count) and the
adjacency list, modelled as a total function `ℕ → Finset ℕ`; positions
`≥ n` are never read by the modelled operations (reading them would be
out-of-bounds in the C++ `std::vector`). -/

structure UGraph where
  n : ℕ
  adj : ℕ → Finset ℕ
  m : ℕ

/-- The two-sided adjacency update shared by both `add_edge`
implementations: `adjacency_list_[u].insert(v); adjacency_list_[v].insert(u)`. -/
def adjInsert (adj : ℕ → Finset ℕ) (u v : ℕ) : ℕ → Finset ℕ :=
  fun x =>
    if x = u then insert v (adj u)
    else if x = v then insert u (adj v)
    else adj x

/-- `UnlabelledGraph::add_edge`: rejects when `v ∈ adj[u]`, `u == v`, or
`u ∈ adj[v]`; otherwise inserts both directions and increments `m_`. -/
def UGraph.add_edge (g : UGraph) (u v : ℕ) : UGraph × Bool :=
  if v ∈ g.adj u ∨ u = v then (g, false)
  else if u ∈ g.adj v then (g, false)
  else ({ g with adj := adjInsert g.adj u v, m := g.m + 1 }, true)

/-- `UnlabelledGraph::add_vertices`: `n_ += num_vertices` and
`adjacency_list_.resize(n_)` — existing entries are kept, new positions are
empty neighbour sets. -/
def UGraph.add_vertices (g : UGraph) (num_vertices : ℕ) : UGraph :=
  { g with
      n := g.n + num_vertices,
      adj := fun x => if x < g.n then g.adj x else ∅ }

/-- `UnlabelledGraph::is_complete`: `m_ == n_ * (n_ - 1)`. -/
def UGraph.is_complete (g : UGraph) : Bool := g.m == g.n * (g.n - 1)

/-- `UnlabelledGraph::get_occupancy`:
`m_ / (float)((n_ * (n_ - 1)) * 2)` (and `0` when `n_ == 0`).  Note the
source *divides* by the doubled pair count. -/
def UGraph.get_occupancy (g : UGraph) : ℚ :=
  if g.n = 0 then 0 else (g.m : ℚ) / ((g.n * (g.n - 1) * 2 : ℕ) : ℚ)

/-- Degree of a vertex: `adjacency_list_[v].size()`. -/
def UGraph.degree (g : UGraph) (v : ℕ) : ℕ := (g.adj v).card

/-- `UnlabelledGraph::is_anonymous`: every degree value occurring in the
graph occurs with multiplicity at least `k`.  The source tallies a
`degree -> count` map over all `n_` adjacency lists and checks each count;
equivalently, for every vertex the number of vertices sharing its degree is
at least `k`. -/
def UGraph.is_anonymous (g : UGraph) (k : ℕ) : Bool :=
  decide (∀ v < g.n,
    k ≤ ((Finset.range g.n).filter (fun u => g.degree u = g.degree v)).card)

/-- The list of all unordered vertex pairs `(i, j)`, `i < j < n`, in the
order enumerated by `populate_uniformly`'s double loop. -/
def allPairs (n : ℕ) : List (ℕ × ℕ) :=
  (List.range n).flatMap (fun i => (List.range' (i + 1) (n - (i + 1))).map (fun j => (i, j)))

/-- The insertion loop of `populate_uniformly`: walk the (shuffled) pair
list, inserting fresh edges, and return `true` as soon as `num_edges`
insertions have happened; falls off the end with `false` otherwise (the
branch the source labels "should be an unreachable statement!"). -/
def UGraph.popLoop (num_edges : ℕ) : List (ℕ × ℕ) → UGraph → ℕ → UGraph × Bool
  | [], g, _ => (g, false)
  | e :: rest, g, num_added =>
    if (g.add_edge e.1 e.2).2 then
      if num_added + 1 = num_edges then ((g.add_edge e.1 e.2).1, true)
      else UGraph.popLoop num_edges rest (g.add_edge e.1 e.2).1 (num_added + 1)
    else UGraph.popLoop num_edges rest g num_added

/-- `UnlabelledGraph::populate_uniformly`: guard
`num_edges > n_ * (n_ - 1) - m_` (note: *not* the number of remaining
non-edges `n(n-1)/2 - m`), then shuffle all pairs and insert.  The
`std::random_shuffle` is the oracle parameter `shuffle`. -/
def UGraph.populate_uniformly (g : UGraph) (num_edges : ℕ)
    (shuffle : List (ℕ × ℕ) → List (ℕ × ℕ)) : UGraph × Bool :=
  if num_edges > g.n * (g.n - 1) - g.m then (g, false)
  else UGraph.popLoop num_edges (shuffle (allPairs g.n)) g 0

/-- Well-formedness invariant of the graph store, as stated in the spec's
data model: no self-loops, neighbours in range, symmetry, and
`m == (Σ |adjacency[i]|) / 2`. -/
def UWf (g : UGraph) : Prop :=
  (∀ u < g.n, u ∉ g.adj u) ∧
  (∀ u < g.n, g.adj u ⊆ Finset.range g.n) ∧
  (∀ u < g.n, ∀ v < g.n, (v ∈ g.adj u ↔ u ∈ g.adj v)) ∧
  2 * g.m = ∑ u in Finset.range g.n, (g.adj u).card

instance (g : UGraph) : Decidable (UWf g) := by
  unfold UWf; infer_instance

/-! ## Labelled Graph (`graph.cpp`, AlphaProximity engine)

`Graph` owns `n_`, `l_`, the per-vertex labels and the adjacency list. -/

structure Graph where
  n : ℕ
  l : ℕ
  labels : ℕ → ℕ
  adj : ℕ → Finset ℕ
  m : ℕ

/-- `Graph::add_edge`: rejects when `adjacency_list_[u].count(v) > 0` or
`u == v` (this copy does not test the reverse direction); otherwise inserts
both directions and increments `m_`. -/
def Graph.add_edge (g : Graph) (u v : ℕ) : Graph × Bool :=
  if v ∈ g.adj u ∨ u = v then (g, false)
  else ({ g with adj := adjInsert g.adj u v, m := g.m + 1 }, true)

/-- `Graph::is_complete`: `m_ == n_ * (n_ - 1)`. -/
def Graph.is_complete (g : Graph) : Bool := g.m == g.n * (g.n - 1)

/-- `Graph::get_occupancy`: `m_ / (float)(n_ * (n_ - 1)) * 2` (and `0` when
`n_ == 0`).  Unlike `UnlabelledGraph::get_occupancy`, this copy multiplies
by 2. -/
def Graph.get_occupancy (g : Graph) : ℚ :=
  if g.n = 0 then 0 else (g.m : ℚ) / ((g.n * (g.n - 1) : ℕ) : ℚ) * 2

/-- `Graph::get_global_ld`: label frequency counts over all vertices. The
source starts from an all-zero vector of length `l_` and increments the
count at each vertex's label; with all labels `< l_` (undefined behaviour
otherwise) the result is the per-label count of vertices. -/
def Graph.global_ld (g : Graph) : List ℕ :=
  (List.range g.l).map (fun c => ((Finset.range g.n).filter (fun v => g.labels v = c)).card)

/-- `Graph::get_neighbourhood_ld`: like `get_global_ld`, but counting only
`v`'s own label plus the labels of `v`'s neighbours. -/
def Graph.neighbourhood_ld (g : Graph) (v : ℕ) : List ℕ :=
  (List.range g.l).map (fun c =>
    (if g.labels v = c then 1 else 0) + ((g.adj v).filter (fun u => g.labels u = c)).card)

/-- The `max_distance` accumulator of `Graph::is_alpha_proximal`: starts at
`0` and is raised to each vertex's distance between the global and its
neighbourhood label distribution. -/
def Graph.max_distance (g : Graph) : ℚ :=
  (List.range g.n).foldl
    (fun acc v =>
      let dist := distance (g.global_ld) (g.neighbourhood_ld v)
      if dist > acc then dist else acc)
    0

/-- `Graph::is_alpha_proximal`: `max_distance <= alpha`. -/
def Graph.is_alpha_proximal (g : Graph) (alpha : ℚ) : Bool :=
  decide (g.max_distance ≤ alpha)

/-- The retry loop of `Graph::add_random_edge`, driven by the oracle list of
drawn `rand()` pairs; each attempt is reduced `% n_`.  `none` models the
loop not having terminated on the given draws. -/
def Graph.randLoop (g : Graph) : List (ℕ × ℕ) → Option Graph
  | [] => none
  | (a, b) :: rest =>
    let u := a % g.n
    let v := b % g.n
    let r := g.add_edge u v
    if r.2 then some r.1 else g.randLoop rest

/-- `Graph::add_random_edge`: no-op when `is_complete()`, otherwise retry
random pairs until one inserts. -/
def Graph.add_random_edge (g : Graph) (draws : List (ℕ × ℕ)) : Option Graph :=
  if g.is_complete then some g else g.randLoop draws

/-- `ffs` (POSIX, as used in `run_greedy_iteration`): 1-based index of the
least significant set bit, `0` if the argument is zero.  Fuel 64 covers
every value the program can produce (all masks are below `2 ^ 32`). -/
def ffsAux : ℕ → ℕ → ℕ → ℕ
  | 0, _, _ => 0
  | fuel + 1, x, pos => if x = 0 then 0 else if x % 2 = 1 then pos else ffsAux fuel (x / 2) (pos + 1)

def ffs (x : ℕ) : ℕ := ffsAux 64 x 1

/-- `__builtin_popcount`: number of set bits of a `uint32_t`. -/
def popcountAux : ℕ → ℕ → ℕ
  | 0, _ => 0
  | fuel + 1, x => x % 2 + popcountAux fuel (x / 2)

def popcount (x : ℕ) : ℕ := popcountAux 32 x

/-- The mate-scanning loop of `run_greedy_iteration`: walk the remainder of
the shuffled visit order looking for a vertex `u` whose deficiency mask
contains `v`'s label bit and whose label is `lab`; on a successful edge
insertion, clear that mate's bit (`it_mate->second ^= v_label_bitmask`) and
stop.  Returns the updated graph, the updated remainder, and whether an
edge was added. -/
def Graph.findMate (g : Graph) (v lab vmask : ℕ) :
    List (ℕ × ℕ) → Graph × List (ℕ × ℕ) × Bool
  | [] => (g, [], false)
  | (u, um) :: rest =>
    if um &&& vmask ≠ 0 ∧ g.labels u = lab then
      let r := g.add_edge v u
      if r.2 then (r.1, (u, um ^^^ vmask) :: rest, true)
      else
        let r2 := g.findMate v lab vmask rest
        (r2.1, (u, um) :: r2.2.1, r2.2.2)
    else
      let r2 := g.findMate v lab vmask rest
      (r2.1, (u, um) :: r2.2.1, r2.2.2)

/-- The per-label loop of `run_greedy_iteration` for one deficient vertex
`v`: it runs `popcount(defs)` times; each iteration takes
`l = ffs(defs) - 1` (a `uint32_t`, wrapping to `2^32 - 1` when `defs == 0`),
scans for a mate, and then executes `defs ^= 1 << (l - 1)`.  The shift
count `l - 1` is reduced `% 32`, as the x86 hardware does (the C expression
is out-of-range — and hence formally undefined — whenever `l - 1 ≥ 32`, in
particular for `l = 0`, where the source presumably intended `1 << l`). -/
def Graph.processLabels (v vmask : ℕ) :
    ℕ → ℕ → Graph → List (ℕ × ℕ) → Graph × List (ℕ × ℕ) × ℕ
  | 0, _, g, rest => (g, rest, 0)
  | cnt + 1, defs, g, rest =>
    let lab := (ffs defs + 2 ^ 32 - 1) % 2 ^ 32
    let r := g.findMate v lab vmask rest
    let added : ℕ := if r.2.2 then 1 else 0
    let defs' := defs ^^^ (2 ^ ((lab + 2 ^ 32 - 1) % 2 ^ 32 % 32))
    let r2 := Graph.processLabels v vmask cnt defs' r.1 r.2.1
    (r2.1, r2.2.1, added + r2.2.2)

/-- The outer loop of `run_greedy_iteration` over the shuffled visit order:
process each deficient vertex in turn, threading the graph and the
updated remainder of the queue, and summing the edges added.  The loop is
driven structurally by a fuel argument; the caller passes the queue's
length, and `processLabels` preserves the length of the remainder
(`processLabels_length` below), so every queue element is processed,
exactly as in the source's iterator loop. -/
def Graph.processVisit : ℕ → Graph → List (ℕ × ℕ) → Graph × ℕ
  | 0, g, _ => (g, 0)
  | _ + 1, g, [] => (g, 0)
  | fuel + 1, g, (v, defs) :: rest =>
    let vmask := 2 ^ (g.labels v % 32)
    -- `1 << vertex_labels_[v]`; the shift count is reduced `% 32` as the
    -- hardware does (out-of-range shifts are undefined in C).
    let r := Graph.processLabels v vmask (popcount defs) defs g rest
    let r2 := Graph.processVisit fuel r.1 r.2.1
    (r2.1, r.2.2 + r2.2)

/-- `Graph::run_greedy_iteration`: collect the deficient vertices (nonzero
deficiency bitmask against the global distribution), shuffle them (oracle
`shuffle`), and process the queue.  Returns the new graph and the number
of edges added. -/
def Graph.run_greedy_iteration (g : Graph) (alpha : ℚ)
    (shuffle : List (ℕ × ℕ) → List (ℕ × ℕ)) : Graph × ℕ :=
  let visit_order := (List.range g.n).filterMap (fun i =>
    if 0 < get_deficiencies (g.neighbourhood_ld i) g.global_ld alpha
    then some (i, get_deficiencies (g.neighbourhood_ld i) g.global_ld alpha) else none)
  Graph.processVisit (shuffle visit_order).length g (shuffle visit_order)

/-- The `while` loop of `Graph::hopeful`: the loop guard is
`leaks_privacy && !is_complete()`; `leaks_privacy` is initially true here
and is only ever set to false (exiting the loop with the graph unchanged)
when a re-check finds the graph alpha-proximal. -/
def Graph.hopefulLoop (alpha : ℚ) (draws : ℕ → List (ℕ × ℕ)) :
    ℕ → Graph → ℕ → Option Graph
  | 0, _, _ => none
  | fuel + 1, g, t =>
    if g.is_complete then some g
    else if g.is_alpha_proximal alpha then some g
    else
      match g.add_random_edge (draws t) with
      | none => none
      | some g1 => Graph.hopefulLoop alpha draws fuel g1 (t + 1)

/-- `Graph::hopeful`. -/
def Graph.hopeful (g : Graph) (alpha : ℚ) (fuel : ℕ)
    (draws : ℕ → List (ℕ × ℕ)) : Option Graph :=
  if g.is_alpha_proximal alpha then some g
  else Graph.hopefulLoop alpha draws fuel g 0

/-- The `while` loop of `Graph::greedy`: run a greedy iteration; if the
graph is now alpha-proximal stop, otherwise fall back to one random edge
when the iteration added no edges. -/
def Graph.greedyLoop (alpha : ℚ) (shuffles : ℕ → List (ℕ × ℕ) → List (ℕ × ℕ))
    (draws : ℕ → List (ℕ × ℕ)) : ℕ → Graph → ℕ → Option Graph
  | 0, _, _ => none
  | fuel + 1, g, t =>
    if g.is_complete then some g
    else
      let r := g.run_greedy_iteration alpha (shuffles t)
      if r.1.is_alpha_proximal alpha then some r.1
      else if r.2 = 0 then
        match r.1.add_random_edge (draws t) with
        | none => none
        | some g1 => Graph.greedyLoop alpha shuffles draws fuel g1 (t + 1)
      else Graph.greedyLoop alpha shuffles draws fuel r.1 (t + 1)

/-- `Graph::greedy`. -/
def Graph.greedy (g : Graph) (alpha : ℚ) (fuel : ℕ)
    (shuffles : ℕ → List (ℕ × ℕ) → List (ℕ × ℕ))
    (draws : ℕ → List (ℕ × ℕ)) : Option Graph :=
  if g.is_alpha_proximal alpha then some g
  else Graph.greedyLoop alpha shuffles draws fuel g 0

/-- Well-formedness of a labelled graph: the adjacency invariants plus
all labels in range (the source indexes `counts[vertex_labels_[v]]`, which
requires `vertex_labels_[v] < l_`). -/
def LWf (g : Graph) : Prop :=
  (∀ u < g.n, u ∉ g.adj u) ∧
  (∀ u < g.n, g.adj u ⊆ Finset.range g.n) ∧
  (∀ u < g.n, ∀ v < g.n, (v ∈ g.adj u ↔ u ∈ g.adj v)) ∧
  2 * g.m = (∑ u in Finset.range g.n, (g.adj u).card) ∧
  (∀ u < g.n, g.labels u < g.l)

instance (g : Graph) : Decidable (LWf g) := by
  unfold LWf; infer_instance

/-! ## Identity-disclosure engine (`unlabelled_graph.tpp`)

A `DegreeSequence` is a vector of `(degree, vertex id)` pairs sorted by
descending degree (`std::sort` with `std::greater` on pairs, i.e.
lexicographically descending). -/

/-- The degree stored at position `i` of a degree sequence. -/
def degAt (degrees : List (ℕ × ℕ)) (i : ℕ) : ℕ := (degrees.getD i (0, 0)).1

/-- The base case of `anonymize_degree_sequence` (`n < 2 * k`): sum up
`degrees[0].first - degrees[i].first` over `i = 1 .. n-1`.  The accumulator
and the subtraction are `uint32_t` arithmetic, modelled with explicit
`% 2 ^ 32` (`d0 + 2 ^ 32 - di` is the wrapped unsigned difference whenever
`d0, di < 2 ^ 32`). -/
def base_deficiency (degrees : List (ℕ × ℕ)) : ℕ :=
  (List.range' 1 (degrees.length - 1)).foldl
    (fun acc i => (acc + (degAt degrees 0 + 2 ^ 32 - degAt degrees i) % 2 ^ 32) % 2 ^ 32)
    0

/-- One step of the split search of `dpEntry`: candidate split point `j`
with `cost_left = costs[j]` and `cost_right = degrees[j+1] - degrees[i]`;
the accumulator holds `(best_split_pos, best_cost, best_sum)`, improved on
strictly smaller cost, ties broken by strictly smaller sum (the source's
`cost_left`, `cost_right`, `full_cost`, `sum_cost` locals are inlined). -/
def splitStep (d : ℕ → ℕ) (i : ℕ) (tbl : List (ℕ × ℕ)) (acc : ℕ × ℕ × ℕ) (j : ℕ) :
    ℕ × ℕ × ℕ :=
  if max ((tbl.getD j (0, 0)).1) (d (j + 1) - d i) < acc.2.1 ∨
      (max ((tbl.getD j (0, 0)).1) (d (j + 1) - d i) = acc.2.1 ∧
        (tbl.getD j (0, 0)).1 + (d (j + 1) - d i) < acc.2.2)
  then (j + 1, max ((tbl.getD j (0, 0)).1) (d (j + 1) - d i),
    (tbl.getD j (0, 0)).1 + (d (j + 1) - d i))
  else acc

/-- One entry `(costs[i], starts[i])` of the dynamic program, computed from
the table of all previous entries.  For `i < 2k - 1` the entry is the
trivial one-block entry; otherwise the split search of the source is run:
the candidate split points are `j ∈ [range_start, range_end]`, seeded with
`j = range_start` and improved by strict `<` on cost, ties broken by strict
`<` on `cost_left + cost_right`.  The C code computes `range_start` as
`max(k - 1, i - 2*k + 1)` in `uint32_t` arithmetic; for `i ≥ 2k - 1` the
intermediate wrap of `i - 2*k` cancels against `+ 1`, so the value equals
the natural-number expression `max (k - 1) (i + 1 - 2 * k)` used here. -/
def dpEntry (d : ℕ → ℕ) (k : ℕ) (tbl : List (ℕ × ℕ)) (i : ℕ) : ℕ × ℕ :=
  if i < 2 * k - 1 then (d 0 - d i, 0)
  else
    let range_end := i - k
    let range_start := max (k - 1) (i + 1 - 2 * k)
    let cost_left := (tbl.getD range_start (0, 0)).1
    let cost_right := d (range_start + 1) - d i
    let init : ℕ × ℕ × ℕ := (range_start + 1, max cost_left cost_right, cost_left + cost_right)
    let r := (List.range' (range_start + 1) (range_end - range_start)).foldl
      (splitStep d i tbl) init
    (r.2.1, r.1)

/-- The `costs` / `starts` arrays of the dynamic program, built position by
position (each entry only reads strictly earlier entries). -/
def dpTable (d : ℕ → ℕ) (k : ℕ) : ℕ → List (ℕ × ℕ)
  | 0 => []
  | t + 1 => dpTable d k t ++ [dpEntry d k (dpTable d k t) t]

/-- The backward pass of `anonymize_degree_sequence`: starting from the
last index, each step delineates the block `[starts[i], i]` and jumps to
`starts[i] - 1`; the loop terminates when `starts[i] == 0` (the `uint32_t`
index wraps past `0`).  The recursion is driven by fuel (the caller passes
`n`, which is enough because the index strictly decreases); the guard
`i < s` mirrors the source's `assert(block_start <= i)`, which always holds
for tables produced by `dpEntry`. -/
def blocksAux (starts : ℕ → ℕ) : ℕ → ℕ → List (ℕ × ℕ)
  | 0, _ => []
  | fuel + 1, i =>
    let s := starts i
    if s = 0 ∨ i < s then [(s, i)]
    else (s, i) :: blocksAux starts fuel (s - 1)

/-- Rewriting one block `(block_start, i)` of the backward pass: read
`block_degree = degrees[block_start].first` and overwrite
`degrees[j].first` for `j = block_start + 1 .. i` (vertex ids are kept). -/
def rewriteBlock (b : ℕ × ℕ) (ds : List (ℕ × ℕ)) : List (ℕ × ℕ) :=
  (List.range' (b.1 + 1) (b.2 - b.1)).foldl
    (fun ds2 j => List.modify (fun p => ((ds.getD b.1 (0, 0)).1, p.2)) j ds2) ds

/-- Rewriting pass of `anonymize_degree_sequence`: rewrite each block of the
backward pass in turn. -/
def applyBlocks (blocks : List (ℕ × ℕ)) (degrees : List (ℕ × ℕ)) : List (ℕ × ℕ) :=
  blocks.foldl (fun ds b => rewriteBlock b ds) degrees

/-- `costs[i]` of the dynamic program (the cost entry at position `i`,
which only depends on the table of the `i` earlier entries). -/
def dpCost (d : ℕ → ℕ) (k i : ℕ) : ℕ := (dpEntry d k (dpTable d k i) i).1

/-- `starts[i]` of the dynamic program. -/
def dpStart (d : ℕ → ℕ) (k i : ℕ) : ℕ := (dpEntry d k (dpTable d k i) i).2

/-- The `starts` array lookup used by the backward pass of
`anonymize_degree_sequence` (out-of-range positions default to `(0,0)`,
which the pass never reads). -/
def dpStarts (d : ℕ → ℕ) (k n : ℕ) : ℕ → ℕ := fun i => ((dpTable d k n).getD i (0, 0)).2

/-- The blocks delineated by the backward pass of
`anonymize_degree_sequence` on a sequence of length `n`. -/
def dpBlocks (d : ℕ → ℕ) (k n : ℕ) : List (ℕ × ℕ) := blocksAux (dpStarts d k n) n (n - 1)

/-- `anonymize_degree_sequence` (`unlabelled_graph.tpp`): returns the
maximum deficiency (`costs[n-1]`) and the rewritten degree sequence.  In
the base case `n < 2k` the sequence is returned *unmodified* (the source
computes only the deficiency there). -/
def anonymize_degree_sequence (degrees : List (ℕ × ℕ)) (k : ℕ) : ℕ × List (ℕ × ℕ) :=
  if degrees.length < 2 * k then (base_deficiency degrees, degrees)
  else
    (((dpTable (degAt degrees) k degrees.length).getD (degrees.length - 1) (0, 0)).1,
      applyBlocks (dpBlocks (degAt degrees) k degrees.length) degrees)

/-- Lexicographically descending order on `(degree, id)` pairs:
`std::greater<std::pair>` sorts so that consecutive elements `a, b`
satisfy `a ≥ b` in the lexicographic order. -/
def pairGE (a b : ℕ × ℕ) : Prop := b.1 < a.1 ∨ (a.1 = b.1 ∧ b.2 ≤ a.2)

instance : DecidableRel pairGE := fun a b => by unfold pairGE; infer_instance

instance : IsTotal (ℕ × ℕ) pairGE := by
  constructor
  intro a b
  unfold pairGE
  omega

instance : IsTrans (ℕ × ℕ) pairGE := by
  constructor
  intro a b c hab hbc
  unfold pairGE at hab hbc ⊢
  omega

/-- `UnlabelledGraph::retrieve_degree_sequence`: the `(degree, id)` pairs of
all vertices, sorted descending.  All `(degree, id)` pairs are distinct
(ids are), so the descending-sorted permutation is unique and any correct
sort produces it; the model uses insertion sort. -/
def UGraph.retrieve_degree_sequence (g : UGraph) : List (ℕ × ℕ) :=
  List.insertionSort pairGE ((List.range g.n).map (fun i => ((g.adj i).card, i)))

/-- The inner loop of `hide_waldo`'s Section 3.3 phase: connect vertex `v`
to `deficiency` of the new vertices, advancing the cursor cyclically
through `[first_new_vertex, n_)`. -/
def UGraph.connectToNew (v first_new : ℕ) : ℕ → UGraph → ℕ → UGraph × ℕ
  | 0, g, cursor => (g, cursor)
  | deficiency + 1, g, cursor =>
    let g1 := (g.add_edge v cursor).1
    let cursor1 := if cursor = g1.n - 1 then first_new else cursor + 1
    UGraph.connectToNew v first_new deficiency g1 cursor1

/-- The outer loop of `hide_waldo`'s Section 3.3 phase over the original
vertices (positions `0 .. first_new_vertex - 1` of the degree sequence):
vertex `degrees[i].second` receives
`anon_degrees[i].first - degrees[i].first` new edges. -/
def UGraph.defLoop (first_new : ℕ) (anon degrees : List (ℕ × ℕ)) :
    List ℕ → UGraph → ℕ → UGraph × ℕ
  | [], g, cursor => (g, cursor)
  | i :: rest, g, cursor =>
    let deficiency := (anon.getD i (0, 0)).1 - (degrees.getD i (0, 0)).1
    let r := UGraph.connectToNew (degrees.getD i (0, 0)).2 first_new deficiency g cursor
    UGraph.defLoop first_new anon degrees rest r.1 r.2

/-- First pairing loop of `hide_waldo` (`hide_new_vertices` only):
`while (cursor < n_ - 1) { add_edge(cursor, cursor + 1); cursor += 2; }`.
Fuel-driven (the caller passes `n_`, ample since the cursor strictly
increases). -/
def UGraph.pairUp : ℕ → UGraph → ℕ → UGraph × ℕ
  | 0, g, cursor => (g, cursor)
  | fuel + 1, g, cursor =>
    if cursor < g.n - 1 then UGraph.pairUp fuel ((g.add_edge cursor (cursor + 1)).1) (cursor + 2)
    else (g, cursor)

/-- Second pairing loop of `hide_waldo`:
`for (cursor = first_new + 1; cursor < n_; cursor += 2) add_edge(cursor, cursor + 1);`. -/
def UGraph.pairUp2 : ℕ → UGraph → ℕ → UGraph
  | 0, g, _ => g
  | fuel + 1, g, cursor =>
    if cursor < g.n then UGraph.pairUp2 fuel ((g.add_edge cursor (cursor + 1)).1) (cursor + 2)
    else g

/-- The number of new vertices added by `hide_waldo` (Section 3.2): with
`hide_new_vertices`, `max(max_def, k)` rounded up to the next odd count;
otherwise exactly `max_def`. -/
def UGraph.hw_newcount (hide_new_vertices : Bool) (max_def k : ℕ) : ℕ :=
  if hide_new_vertices then
    if (if max_def > k then max_def else k) % 2 = 1 then (if max_def > k then max_def else k)
    else (if max_def > k then max_def else k) + 1
  else max_def

/-- The final pairing procedure of `hide_waldo` (`hide_new_vertices` only,
after `is_anonymous` fails): pair consecutive new vertices; if the cursor
lands on the last vertex, close the cycle with an edge back to
`first_new_vertex` and pair the rest. -/
def UGraph.hw_pairing (g2 : UGraph) (first_new cursor : ℕ) : UGraph :=
  if (UGraph.pairUp g2.n g2 cursor).2 = (UGraph.pairUp g2.n g2 cursor).1.n - 1 then
    UGraph.pairUp2
      (((UGraph.pairUp g2.n g2 cursor).1.add_edge
          ((UGraph.pairUp g2.n g2 cursor).1.n - 1) first_new).1).n
      (((UGraph.pairUp g2.n g2 cursor).1.add_edge
          ((UGraph.pairUp g2.n g2 cursor).1.n - 1) first_new).1)
      (first_new + 1)
  else (UGraph.pairUp g2.n g2 cursor).1

/-- The tail of `hide_waldo`: if `hide_new_vertices` and some new vertex
received an edge (`cursor != first_new_vertex`), check anonymity and run
the pairing procedure if it fails. -/
def UGraph.hw_phase2 (hide_new_vertices : Bool) (k : ℕ) (g2 : UGraph)
    (first_new cursor : ℕ) : UGraph :=
  if hide_new_vertices ∧ cursor ≠ first_new then
    if g2.is_anonymous k then g2 else UGraph.hw_pairing g2 first_new cursor
  else g2

/-- `UnlabelledGraph::hide_waldo<hide_new_vertices>(k)`
(`unlabelled_graph.tpp`), assembled from the stages above: anonymize the
degree sequence, add new vertices when `max_def > 0`, connect each original
vertex to `anon_degrees[i].first - degrees[i].first` new vertices
cyclically, then run the `hide_new_vertices` tail. -/
def UGraph.hide_waldo (hide_new_vertices : Bool) (g : UGraph) (k : ℕ) : UGraph :=
  if (anonymize_degree_sequence g.retrieve_degree_sequence k).1 > 0 then
    UGraph.hw_phase2 hide_new_vertices k
      (UGraph.defLoop g.n (anonymize_degree_sequence g.retrieve_degree_sequence k).2
        g.retrieve_degree_sequence (List.range g.n)
        (g.add_vertices (UGraph.hw_newcount hide_new_vertices
          (anonymize_degree_sequence g.retrieve_degree_sequence k).1 k))
        g.n).1
      g.n
      (UGraph.defLoop g.n (anonymize_degree_sequence g.retrieve_degree_sequence k).2
        g.retrieve_degree_sequence (List.range g.n)
        (g.add_vertices (UGraph.hw_newcount hide_new_vertices
          (anonymize_degree_sequence g.retrieve_degree_sequence k).1 k))
        g.n).2
  else g

/-! ## Clustering coefficient (`unlabelled_graph.cpp`) -/

/-- Denominator of `clustering_coefficient`: the `std::accumulate` of
`deg(u) * (deg(u) - 1)`. -/
def UGraph.possible_fast (g : UGraph) : ℕ :=
  ∑ u in Finset.range g.n, (g.adj u).card * ((g.adj u).card - 1)

/-- Numerator of `clustering_coefficient`: for each `u`, the ordered pairs
`(v, w)` of distinct neighbours of `u` with `w` also adjacent to `v`. -/
def UGraph.closed_fast (g : UGraph) : ℕ :=
  ∑ u in Finset.range g.n,
    ((g.adj u ×ˢ g.adj u).filter (fun p => p.1 ≠ p.2 ∧ p.2 ∈ g.adj p.1)).card

/-- `UnlabelledGraph::clustering_coefficient`. -/
def UGraph.clustering_coefficient (g : UGraph) : ℚ :=
  (g.closed_fast : ℚ) / (g.possible_fast : ℚ)

/-- The ordered vertex triples `(u, v, w)` counted as "possible triangles"
by the brute-force loop: pairwise distinct, with `v ∈ adj[u]` and
`w ∈ adj[v]`. -/
def UGraph.bruteTriples (g : UGraph) : Finset (ℕ × ℕ × ℕ) :=
  (Finset.range g.n ×ˢ Finset.range g.n ×ˢ Finset.range g.n).filter
    (fun p => p.1 ≠ p.2.1 ∧ p.1 ≠ p.2.2 ∧ p.2.1 ≠ p.2.2 ∧
      p.2.1 ∈ g.adj p.1 ∧ p.2.2 ∈ g.adj p.2.1)

/-- `UnlabelledGraph::clustering_coefficient_brute_force`: the triple loop
over all ordered vertex triples. -/
def UGraph.clustering_coefficient_brute_force (g : UGraph) : ℚ :=
  let possible_triangles := g.bruteTriples.card
  let closed_triangles := (g.bruteTriples.filter (fun p => p.2.2 ∈ g.adj p.1)).card
  (closed_triangles : ℚ) / (possible_triangles : ℚ)

/-! ## Concrete graphs used in counterexamples and witnesses -/

/-- The path graph `0 - 1 - 2` on three vertices. -/
def gP3 : UGraph :=
  ⟨3, fun x => if x = 0 then {1} else if x = 1 then {0, 2} else if x = 2 then {1} else ∅, 2⟩

/-- The complete graph on two vertices (unlabelled). -/
def gK2u : UGraph := ⟨2, fun x => if x = 0 then {1} else if x = 1 then {0} else ∅, 1⟩

/-- The complete graph on two vertices, labelled with one label. -/
def gK2l : Graph :=
  ⟨2, 1, fun _ => 0, fun x => if x = 0 then {1} else if x = 1 then {0} else ∅, 1⟩

/-- The empty graph on two vertices. -/
def gE2 : UGraph := ⟨2, fun _ => ∅, 0⟩

/-! ## General fold helpers -/

theorem foldl_add_abs (f : ℕ → ℚ) :
    ∀ (l : List ℕ) (init : ℚ),
      l.foldl (fun acc i => acc + (if f i > 0 then f i else -1 * f i)) init
        = init + (l.map (fun i => |f i|)).sum := by
  intro l
  induction l with
  | nil => intro init; simp
  | cons x xs ih =>
    intro init
    have habs : (if f x > 0 then f x else -1 * f x) = |f x| := by
      rcases le_or_lt (f x) 0 with h | h
      · rw [if_neg (not_lt.mpr h), abs_of_nonpos h]; ring
      · rw [if_pos h, abs_of_pos h]
    rw [List.foldl_cons, ih, List.map_cons, List.sum_cons, habs]
    ring

theorem foldl_invariant {α β : Type _} (P : β → Prop) (f : β → α → β) (l : List α) (init : β)
    (h0 : P init) (hstep : ∀ b a, a ∈ l → P b → P (f b a)) : P (l.foldl f init) := by
  induction l generalizing init with
  | nil => exact h0
  | cons x xs ih =>
    exact ih (f init x) (hstep init x (by simp) h0) (fun b a ha hb => hstep b a (by simp [ha]) hb)

theorem foldl_congr_mem {α β : Type _} (l : List α) (f g : β → α → β) (init : β)
    (h : ∀ b a, a ∈ l → f b a = g b a) : l.foldl f init = l.foldl g init := by
  induction l generalizing init with
  | nil => rfl
  | cons x xs ih =>
    rw [List.foldl_cons, List.foldl_cons, h init x (by simp)]
    exact ih _ (fun b a ha => h b a (by simp [ha]))

theorem foldl_add_mod (M : ℕ) (f : ℕ → ℕ) (l : List ℕ) :
    ∀ init : ℕ, init + (l.map f).sum < M →
      l.foldl (fun acc i => (acc + f i) % M) init = init + (l.map f).sum := by
  induction l with
  | nil => intro init _; simp
  | cons x xs ih =>
    intro init hlt
    rw [List.map_cons, List.sum_cons] at hlt
    have h1 : (init + f x) % M = init + f x := Nat.mod_eq_of_lt (by omega)
    rw [List.foldl_cons, h1, ih (init + f x) (by omega)]
    simp; omega

/-! ## Claim theorems: label distribution -/

/-- Claim C7: for distributions of equal length `L`, `distance` is the sum
over indices `0 .. L-2` of the absolute differences of relative
frequencies (the last label is excluded); the frequency sets `{7,2,1}` and
`{2,4,4}` are at distance `7/10`, single-label distributions are at
distance `0`, and distributions of different lengths are incomparable. -/
theorem claim_C7_distance :
    (∀ a b : List ℕ, a.length = b.length →
        distance a b
          = ((List.range (a.length - 1)).map
              (fun i => |get_frequency a i - get_frequency b i|)).sum) ∧
    distance [7, 2, 1] [2, 4, 4] = 7 / 10 ∧
    distance [5] [9] = 0 ∧
    (∀ a b : List ℕ, a.length ≠ b.length → distance a b = LD_INCOMPARABLE) := by
  refine ⟨fun a b h => ?_, ?_, ?_, fun a b h => ?_⟩
  · rw [distance, if_neg (by omega)]
    exact (foldl_add_abs (fun i => get_frequency a i - get_frequency b i) _ 0).trans (by ring_nf)
  · norm_num [distance, get_frequency, List.range_succ]
  · norm_num [distance, get_frequency, List.range_succ]
  · rw [distance, if_pos h]

/-- Witness for C7 at a concrete pair of equal-length distributions. -/
theorem claim_C7_distance_witness :
    distance [1, 2] [3, 4]
      = ((List.range 1).map (fun i => |get_frequency [1, 2] i - get_frequency [3, 4] i|)).sum :=
  claim_C7_distance.1 [1, 2] [3, 4] rfl

/-! ## Edge-insertion characterization lemmas -/

theorem UGraph.add_edge_false (g : UGraph) (u v : ℕ)
    (h : v ∈ g.adj u ∨ u = v ∨ u ∈ g.adj v) : g.add_edge u v = (g, false) := by
  unfold UGraph.add_edge
  by_cases h1 : v ∈ g.adj u ∨ u = v
  · rw [if_pos h1]
  · rw [if_neg h1, if_pos (by tauto)]

theorem UGraph.add_edge_true (g : UGraph) (u v : ℕ)
    (h : ¬(v ∈ g.adj u ∨ u = v ∨ u ∈ g.adj v)) :
    g.add_edge u v = ({ g with adj := adjInsert g.adj u v, m := g.m + 1 }, true) := by
  unfold UGraph.add_edge
  rw [if_neg (by tauto), if_neg (by tauto)]

theorem Graph.add_edge_skip (g : Graph) (u v : ℕ)
    (h : v ∈ g.adj u ∨ u = v) : g.add_edge u v = (g, false) := by
  unfold Graph.add_edge
  rw [if_pos h]

theorem Graph.add_edge_ins (g : Graph) (u v : ℕ)
    (h : ¬(v ∈ g.adj u ∨ u = v)) :
    g.add_edge u v = ({ g with adj := adjInsert g.adj u v, m := g.m + 1 }, true) := by
  unfold Graph.add_edge
  rw [if_neg h]

/-! ## Claim theorems: edge insertion -/

/-- Claim C6: `add_edge(u, v)` (both the `UnlabelledGraph` and the `Graph`
copy) returns `true` and increments the edge count by one exactly when
`u ≠ v` and the edge is absent in both directions; on failure it returns
`false` with the graph unchanged; and immediately repeating a successful
call returns `false` and leaves the result unchanged.  The `Graph` copy
only tests the direction `v ∈ adj[u]`, so its equivalence with the
"either direction" condition uses the symmetry invariant. -/
theorem claim_C6_add_edge :
    (∀ (g : UGraph) (u v : ℕ),
        ((g.add_edge u v).2 = true ↔ u ≠ v ∧ v ∉ g.adj u ∧ u ∉ g.adj v) ∧
        ((g.add_edge u v).2 = true →
          (g.add_edge u v).1.m = g.m + 1 ∧
          ((g.add_edge u v).1.add_edge u v).2 = false ∧
          ((g.add_edge u v).1.add_edge u v).1 = (g.add_edge u v).1) ∧
        ((g.add_edge u v).2 = false → (g.add_edge u v).1 = g)) ∧
    (∀ (g : Graph) (u v : ℕ), LWf g → u < g.n → v < g.n →
        (((g.add_edge u v).2 = true ↔ u ≠ v ∧ v ∉ g.adj u ∧ u ∉ g.adj v) ∧
        ((g.add_edge u v).2 = true →
          (g.add_edge u v).1.m = g.m + 1 ∧
          ((g.add_edge u v).1.add_edge u v).2 = false ∧
          ((g.add_edge u v).1.add_edge u v).1 = (g.add_edge u v).1) ∧
        ((g.add_edge u v).2 = false → (g.add_edge u v).1 = g))) := by
  constructor
  · intro g u v
    by_cases h : v ∈ g.adj u ∨ u = v ∨ u ∈ g.adj v
    · rw [UGraph.add_edge_false g u v h]
      refine ⟨by simp; tauto, by simp, by simp⟩
    · rw [UGraph.add_edge_true g u v h]
      refine ⟨by simp; tauto, fun _ => ⟨rfl, ?_, ?_⟩, by simp⟩
      · rw [UGraph.add_edge_false _ u v (by left; simp [adjInsert])]
      · rw [UGraph.add_edge_false _ u v (by left; simp [adjInsert])]
  · intro g u v hwf hu hv
    have hsym : v ∈ g.adj u ↔ u ∈ g.adj v := hwf.2.2.1 u hu v hv
    by_cases h : v ∈ g.adj u ∨ u = v
    · rw [Graph.add_edge_skip g u v h]
      refine ⟨by simp; tauto, by simp, by simp⟩
    · rw [Graph.add_edge_ins g u v h]
      refine ⟨by simp; tauto, fun _ => ⟨rfl, ?_, ?_⟩, by simp⟩
      · rw [Graph.add_edge_skip _ u v (by left; simp [adjInsert])]
      · rw [Graph.add_edge_skip _ u v (by left; simp [adjInsert])]

/-- Witness for C6 at a concrete graph: inserting the fresh edge `(0, 1)`
into the 2-vertex empty graphs. -/
theorem claim_C6_add_edge_witness :
    (gE2.add_edge 0 1).2 = true ∧
    ((⟨2, 1, fun _ => 0, fun _ => ∅, 0⟩ : Graph).add_edge 0 1).2 = true := by
  constructor
  · exact (claim_C6_add_edge.1 gE2 0 1).1.mpr (by decide)
  · exact ((claim_C6_add_edge.2 ⟨2, 1, fun _ => 0, fun _ => ∅, 0⟩ 0 1
      (by decide) (by decide) (by decide)).1).mpr (by decide)

/-! ## Claim theorems: population and occupancy (code bugs) -/

/-- Claim C4 (code bug): on the empty 2-vertex graph, the number of
remaining non-edges is `n(n-1)/2 - m = 1`, so by the claim
`populate_uniformly(2)` must return `false` *with no edges added*; the code
instead passes its guard (`2 > n(n-1) - m = 2` is false), inserts one edge,
and then reaches the `return false` that the source comments call "should
be an unreachable statement!" — the call is neither failure-atomic nor
guard-correct. -/
theorem claim_C4_populate_uniformly_not_atomic :
    (gE2.populate_uniformly 2 id).2 = false ∧
    (gE2.populate_uniformly 2 id).1.m = 1 ∧
    2 > gE2.n * (gE2.n - 1) / 2 - gE2.m := by
  refine ⟨by decide, by decide, by decide⟩

/-- Claim C8 (code bug): on the complete 2-vertex graph
(`n = 2, m = 1`) the claimed occupancy `m / (n(n-1)/2)` is `1`, but
`UnlabelledGraph::get_occupancy` returns `1/4`: it computes
`m / ((n * (n-1)) * 2)`, i.e. it *divides* by 2 where its own
`x2 because undirected` comment (and the `Graph` copy, which returns
`m / (n * (n-1)) * 2 = 1` here) multiplies. -/
theorem claim_C8_occupancy_divides :
    UGraph.get_occupancy gK2u = 1 / 4 ∧
    (gK2u.m : ℚ) / ((gK2u.n * (gK2u.n - 1) : ℚ) / 2) = 1 ∧
    Graph.get_occupancy gK2l = 1 ∧
    (1 / 4 : ℚ) ≠ 1 := by
  refine ⟨?_, ?_, ?_, by norm_num⟩
  · norm_num [UGraph.get_occupancy, gK2u]
  · norm_num [gK2u]
  · norm_num [Graph.get_occupancy, gK2l]

/-! ## Claim theorems: hide_waldo misses anonymity in the DP base case -/

/-- Claim C2 (code bug): on the path graph `0 - 1 - 2` with `k = 2 ≤ n`,
the DP base case (`n = 3 < 2k`) computes `max_deficiency = 2` but returns
the degree sequence *unmodified* (violating the documented postcondition of
`anonymize_degree_sequence`), so `hide_waldo<false>(2)` adds two isolated
vertices and no edges, and the unique degree-2 vertex leaves
`is_anonymous(2)` false.  (The vertex-count part of the claim does hold:
`n` grows by exactly the computed `max_deficiency`.) -/
theorem claim_C2_hide_waldo_not_anonymous :
    (UGraph.hide_waldo false gP3 2).is_anonymous 2 = false ∧
    UWf gP3 ∧
    2 ≤ gP3.n ∧
    (anonymize_degree_sequence gP3.retrieve_degree_sequence 2).1 = 2 ∧
    (UGraph.hide_waldo false gP3 2).n = gP3.n + 2 := by
  refine ⟨by decide, by decide, by decide, by decide, by decide⟩

/-! ## Claim theorems: the DP base case (`n < 2k`) -/

/-- Claim C10: when `n < 2k`, `anonymize_degree_sequence` returns the sum
of `degrees[0].first - degrees[i].first` over all positions and does not
modify the degree sequence at all.  The hypotheses record that the head of
a degree sequence is maximal (degree sequences are sorted descending) and
that the `uint32_t` arithmetic of the source does not wrap. -/
theorem claim_C10_base_case (degrees : List (ℕ × ℕ)) (k : ℕ)
    (hn : degrees.length < 2 * k)
    (hhead : ∀ i < degrees.length, degAt degrees i ≤ degAt degrees 0)
    (hd0 : degAt degrees 0 < 2 ^ 32)
    (hbound : ((List.range' 1 (degrees.length - 1)).map
        (fun i => degAt degrees 0 - degAt degrees i)).sum < 2 ^ 32) :
    anonymize_degree_sequence degrees k
      = (((List.range' 1 (degrees.length - 1)).map
          (fun i => degAt degrees 0 - degAt degrees i)).sum, degrees) := by
  rw [anonymize_degree_sequence, if_pos hn]
  refine Prod.ext ?_ rfl
  show base_deficiency degrees = _
  rw [base_deficiency]
  rw [foldl_congr_mem _ _
      (fun acc i => (acc + (degAt degrees 0 - degAt degrees i)) % 2 ^ 32) 0 ?_]
  · exact (foldl_add_mod (2 ^ 32) _ _ 0 (by simpa using hbound)).trans (by simp)
  · intro b i hi
    have hi2 : i < degrees.length := by
      have := List.mem_range'_1.mp hi
      omega
    have hle : degAt degrees i ≤ degAt degrees 0 := hhead i hi2
    have : (degAt degrees 0 + 2 ^ 32 - degAt degrees i) % 2 ^ 32
        = degAt degrees 0 - degAt degrees i := by
      have h1 : degAt degrees 0 + 2 ^ 32 - degAt degrees i
          = (degAt degrees 0 - degAt degrees i) + 2 ^ 32 := by omega
      rw [h1, Nat.add_mod_right, Nat.mod_eq_of_lt (by omega)]
    rw [this]

/-- Witness for C10: the descending degree sequence of the 3-path with
`k = 2`. -/
theorem claim_C10_base_case_witness :
    anonymize_degree_sequence [(2, 1), (1, 2), (1, 0)] 2 = (2, [(2, 1), (1, 2), (1, 0)]) :=
  (claim_C10_base_case [(2, 1), (1, 2), (1, 0)] 2 (by decide) (by decide) (by decide)
    (by decide)).trans (by decide)

/-! ## Preservation of the adjacency invariants (unlabelled graph) -/

theorem adjInsert_mem (adj : ℕ → Finset ℕ) (u v : ℕ) (huv : u ≠ v) (a b : ℕ) :
    b ∈ adjInsert adj u v a ↔ b ∈ adj a ∨ (a = u ∧ b = v) ∨ (a = v ∧ b = u) := by
  unfold adjInsert
  by_cases hau : a = u
  · subst hau
    rw [if_pos rfl]
    constructor
    · intro h
      rcases Finset.mem_insert.mp h with h | h
      · exact Or.inr (Or.inl ⟨rfl, h⟩)
      · exact Or.inl h
    · rintro (h | ⟨-, h⟩ | ⟨h, -⟩)
      · exact Finset.mem_insert_of_mem h
      · rw [h]; exact Finset.mem_insert_self v _
      · exact absurd h huv
  · by_cases hav : a = v
    · subst hav
      rw [if_neg hau, if_pos rfl]
      constructor
      · intro h
        rcases Finset.mem_insert.mp h with h | h
        · exact Or.inr (Or.inr ⟨rfl, h⟩)
        · exact Or.inl h
      · rintro (h | ⟨h, -⟩ | ⟨-, h⟩)
        · exact Finset.mem_insert_of_mem h
        · exact absurd h.symm huv
        · rw [h]; exact Finset.mem_insert_self u _
    · rw [if_neg hau, if_neg hav]
      simp [hau, hav]

theorem adjInsert_card (adj : ℕ → Finset ℕ) (u v : ℕ) (huv : u ≠ v)
    (hvu : v ∉ adj u) (huadj : u ∉ adj v) (x : ℕ) :
    (adjInsert adj u v x).card
      = (adj x).card + ((if x = u then 1 else 0) + (if x = v then 1 else 0)) := by
  unfold adjInsert
  by_cases hxu : x = u
  · subst hxu
    rw [if_pos rfl, if_pos rfl, if_neg huv, Finset.card_insert_of_not_mem hvu]
  · by_cases hxv : x = v
    · subst hxv
      rw [if_neg hxu, if_pos rfl, if_neg hxu, if_pos rfl,
        Finset.card_insert_of_not_mem huadj]
    · rw [if_neg hxu, if_neg hxv, if_neg hxu, if_neg hxv]
      omega

theorem UGraph.add_edge_n (g : UGraph) (u v : ℕ) : (g.add_edge u v).1.n = g.n := by
  unfold UGraph.add_edge
  split_ifs <;> rfl

theorem UGraph.add_edge_m_le (g : UGraph) (u v : ℕ) : g.m ≤ (g.add_edge u v).1.m := by
  unfold UGraph.add_edge
  split_ifs <;> simp

theorem UGraph.add_edge_uwf (g : UGraph) (u v : ℕ) (hwf : UWf g)
    (hu : u < g.n) (hv : v < g.n) : UWf (g.add_edge u v).1 := by
  by_cases h : v ∈ g.adj u ∨ u = v ∨ u ∈ g.adj v
  · rw [UGraph.add_edge_false g u v h]; exact hwf
  · have huv : u ≠ v := fun hh => h (Or.inr (Or.inl hh))
    have hvu : v ∉ g.adj u := fun hh => h (Or.inl hh)
    have huadj : u ∉ g.adj v := fun hh => h (Or.inr (Or.inr hh))
    obtain ⟨hloop, hrange, hsym, hsum⟩ := hwf
    rw [UGraph.add_edge_true g u v h]
    refine ⟨?_, ?_, ?_, ?_⟩
    · intro x hx
      show x ∉ adjInsert g.adj u v x
      rw [adjInsert_mem g.adj u v huv]
      rintro (h1 | ⟨h2, h3⟩ | ⟨h2, h3⟩)
      · exact hloop x hx h1
      · exact huv (h2.symm.trans h3)
      · exact huv (h3.symm.trans h2)
    · intro x hx
      show adjInsert g.adj u v x ⊆ Finset.range g.n
      intro b hb
      rw [adjInsert_mem g.adj u v huv] at hb
      rcases hb with h1 | ⟨-, rfl⟩ | ⟨-, rfl⟩
      · exact hrange x hx h1
      · exact Finset.mem_range.mpr hv
      · exact Finset.mem_range.mpr hu
    · intro a ha b hb
      show b ∈ adjInsert g.adj u v a ↔ a ∈ adjInsert g.adj u v b
      rw [adjInsert_mem g.adj u v huv, adjInsert_mem g.adj u v huv, hsym a ha b hb]
      tauto
    · show 2 * (g.m + 1) = ∑ x in Finset.range g.n, (adjInsert g.adj u v x).card
      rw [Finset.sum_congr rfl (fun x _ => adjInsert_card g.adj u v huv hvu huadj x),
        Finset.sum_add_distrib, Finset.sum_add_distrib,
        Finset.sum_ite_eq' (Finset.range g.n) u (fun _ => 1),
        Finset.sum_ite_eq' (Finset.range g.n) v (fun _ => 1),
        if_pos (Finset.mem_range.mpr hu), if_pos (Finset.mem_range.mpr hv), ← hsum]
      ring

theorem UGraph.add_vertices_uwf (g : UGraph) (c : ℕ) (hwf : UWf g) :
    UWf (g.add_vertices c) := by
  obtain ⟨hloop, hrange, hsym, hsum⟩ := hwf
  refine ⟨?_, ?_, ?_, ?_⟩
  · intro u _
    show u ∉ (if u < g.n then g.adj u else ∅)
    split_ifs with h
    · exact hloop u h
    · simp
  · intro u _
    show (if u < g.n then g.adj u else ∅) ⊆ Finset.range (g.n + c)
    split_ifs with h
    · exact (hrange u h).trans (Finset.range_subset.mpr (by omega))
    · simp
  · intro a _ b _
    show b ∈ (if a < g.n then g.adj a else ∅) ↔ a ∈ (if b < g.n then g.adj b else ∅)
    split_ifs with h1 h2 h3
    · exact hsym a h1 b h2
    · have hnb : b ∉ g.adj a := fun hmem => h2 (Finset.mem_range.mp (hrange a h1 hmem))
      simp [hnb]
    · have hna : a ∉ g.adj b := fun hmem => h1 (Finset.mem_range.mp (hrange b h3 hmem))
      simp [hna]
    · simp
  · show 2 * g.m = ∑ u in Finset.range (g.n + c), (if u < g.n then g.adj u else ∅).card
    have hext : ∑ u in Finset.range (g.n + c), (if u < g.n then g.adj u else ∅).card
        = ∑ u in Finset.range g.n, (if u < g.n then g.adj u else ∅).card :=
      (Finset.sum_subset (Finset.range_subset.mpr (Nat.le_add_right g.n c))
        (fun x _ hx => by rw [if_neg (fun h => hx (Finset.mem_range.mpr h))]; simp)).symm
    rw [hext, hsum]
    exact Finset.sum_congr rfl (fun x hx => by rw [if_pos (Finset.mem_range.mp hx)])

theorem UGraph.add_edge_eq_of_false (g : UGraph) (u v : ℕ)
    (hb : (g.add_edge u v).2 = false) : (g.add_edge u v).1 = g := by
  by_cases hcond : v ∈ g.adj u ∨ u = v ∨ u ∈ g.adj v
  · rw [UGraph.add_edge_false g u v hcond]
  · rw [UGraph.add_edge_true g u v hcond] at hb
    simp at hb

theorem UGraph.popLoop_uwf (e : ℕ) :
    ∀ (l : List (ℕ × ℕ)) (g : UGraph) (c : ℕ), UWf g →
      (∀ p ∈ l, p.1 < g.n ∧ p.2 < g.n) →
      UWf (UGraph.popLoop e l g c).1 ∧ (UGraph.popLoop e l g c).1.n = g.n ∧
        g.m ≤ (UGraph.popLoop e l g c).1.m := by
  intro l
  induction l with
  | nil => intro g c hwf _; exact ⟨hwf, rfl, le_refl _⟩
  | cons p rest ih =>
    intro g c hwf hmem
    have hp := hmem p (by simp)
    have hwf1 : UWf (g.add_edge p.1 p.2).1 := UGraph.add_edge_uwf g p.1 p.2 hwf hp.1 hp.2
    have hn1 : (g.add_edge p.1 p.2).1.n = g.n := UGraph.add_edge_n g p.1 p.2
    have hm1 : g.m ≤ (g.add_edge p.1 p.2).1.m := UGraph.add_edge_m_le g p.1 p.2
    simp only [UGraph.popLoop]
    split_ifs with h1 h2
    · exact ⟨hwf1, hn1, hm1⟩
    · have hrec := ih (g.add_edge p.1 p.2).1 (c + 1) hwf1
        (fun q hq => hn1 ▸ hmem q (by simp [hq]))
      exact ⟨hrec.1, hrec.2.1.trans hn1, hm1.trans hrec.2.2⟩
    · exact ih g c hwf (fun q hq => hmem q (by simp [hq]))

theorem UGraph.connectToNew_uwf (v first_new : ℕ) :
    ∀ (d : ℕ) (g : UGraph) (cursor : ℕ), UWf g → v < g.n → first_new < g.n →
      first_new ≤ cursor → cursor < g.n →
      UWf (UGraph.connectToNew v first_new d g cursor).1 ∧
        (UGraph.connectToNew v first_new d g cursor).1.n = g.n ∧
        g.m ≤ (UGraph.connectToNew v first_new d g cursor).1.m ∧
        first_new ≤ (UGraph.connectToNew v first_new d g cursor).2 ∧
        (UGraph.connectToNew v first_new d g cursor).2 < g.n := by
  intro d
  induction d with
  | zero => intro g cursor hwf _ _ h1 h2; exact ⟨hwf, rfl, le_refl _, h1, h2⟩
  | succ d ih =>
    intro g cursor hwf hv hfn h1 h2
    have hwf1 : UWf (g.add_edge v cursor).1 := UGraph.add_edge_uwf g v cursor hwf hv h2
    have hn1 : (g.add_edge v cursor).1.n = g.n := UGraph.add_edge_n g v cursor
    have hm1 : g.m ≤ (g.add_edge v cursor).1.m := UGraph.add_edge_m_le g v cursor
    simp only [UGraph.connectToNew]
    rw [hn1]
    split_ifs with hc
    · have hrec := ih (g.add_edge v cursor).1 first_new hwf1 (hn1 ▸ hv) (hn1 ▸ hfn)
        (le_refl _) (hn1 ▸ hfn)
      exact ⟨hrec.1, hrec.2.1.trans hn1, hm1.trans hrec.2.2.1,
        hrec.2.2.2.1, hn1 ▸ hrec.2.2.2.2⟩
    · have hc2 : cursor + 1 < g.n := by omega
      have hrec := ih (g.add_edge v cursor).1 (cursor + 1) hwf1 (hn1 ▸ hv) (hn1 ▸ hfn)
        (by omega) (hn1 ▸ hc2)
      exact ⟨hrec.1, hrec.2.1.trans hn1, hm1.trans hrec.2.2.1,
        hrec.2.2.2.1, hn1 ▸ hrec.2.2.2.2⟩

theorem UGraph.defLoop_uwf (first_new : ℕ) (anon degrees : List (ℕ × ℕ)) :
    ∀ (l : List ℕ) (g : UGraph) (cursor : ℕ), UWf g →
      (∀ i ∈ l, (degrees.getD i (0, 0)).2 < first_new) →
      first_new < g.n → first_new ≤ cursor → cursor < g.n →
      UWf (UGraph.defLoop first_new anon degrees l g cursor).1 ∧
        (UGraph.defLoop first_new anon degrees l g cursor).1.n = g.n ∧
        g.m ≤ (UGraph.defLoop first_new anon degrees l g cursor).1.m ∧
        first_new ≤ (UGraph.defLoop first_new anon degrees l g cursor).2 ∧
        (UGraph.defLoop first_new anon degrees l g cursor).2 < g.n := by
  intro l
  induction l with
  | nil => intro g cursor hwf _ _ h1 h2; exact ⟨hwf, rfl, le_refl _, h1, h2⟩
  | cons i rest ih =>
    intro g cursor hwf hids hfn h1 h2
    have hv : (degrees.getD i (0, 0)).2 < g.n := (hids i (by simp)).trans hfn
    have hc := UGraph.connectToNew_uwf (degrees.getD i (0, 0)).2 first_new
      ((anon.getD i (0, 0)).1 - (degrees.getD i (0, 0)).1) g cursor hwf hv hfn h1 h2
    simp only [UGraph.defLoop]
    have hrec := ih _ _ hc.1 (fun j hj => hids j (by simp [hj]))
      (by rw [hc.2.1]; exact hfn) hc.2.2.2.1 (by rw [hc.2.1]; exact hc.2.2.2.2)
    refine ⟨hrec.1, hrec.2.1.trans hc.2.1, hc.2.2.1.trans hrec.2.2.1,
      hrec.2.2.2.1, ?_⟩
    have := hrec.2.2.2.2
    rw [hc.2.1] at this
    exact this

theorem UGraph.pairUp_uwf :
    ∀ (fuel : ℕ) (g : UGraph) (cursor : ℕ), UWf g →
      UWf (UGraph.pairUp fuel g cursor).1 ∧
        (UGraph.pairUp fuel g cursor).1.n = g.n ∧
        g.m ≤ (UGraph.pairUp fuel g cursor).1.m := by
  intro fuel
  induction fuel with
  | zero => intro g cursor hwf; exact ⟨hwf, rfl, le_refl _⟩
  | succ fuel ih =>
    intro g cursor hwf
    simp only [UGraph.pairUp]
    split_ifs with hc
    · have hwf1 : UWf (g.add_edge cursor (cursor + 1)).1 :=
        UGraph.add_edge_uwf g cursor (cursor + 1) hwf (by omega) (by omega)
      have hn1 := UGraph.add_edge_n g cursor (cursor + 1)
      have hm1 := UGraph.add_edge_m_le g cursor (cursor + 1)
      have hrec := ih _ (cursor + 2) hwf1
      exact ⟨hrec.1, hrec.2.1.trans hn1, hm1.trans hrec.2.2⟩
    · exact ⟨hwf, rfl, le_refl _⟩

theorem UGraph.pairUp2_uwf :
    ∀ (fuel : ℕ) (g : UGraph) (cursor : ℕ), UWf g → cursor ≤ g.n →
      (g.n - cursor) % 2 = 0 →
      UWf (UGraph.pairUp2 fuel g cursor) ∧
        (UGraph.pairUp2 fuel g cursor).n = g.n ∧
        g.m ≤ (UGraph.pairUp2 fuel g cursor).m := by
  intro fuel
  induction fuel with
  | zero => intro g cursor hwf _ _; exact ⟨hwf, rfl, le_refl _⟩
  | succ fuel ih =>
    intro g cursor hwf hle hpar
    simp only [UGraph.pairUp2]
    split_ifs with hc
    · have hc1 : cursor + 1 < g.n := by omega
      have hwf1 : UWf (g.add_edge cursor (cursor + 1)).1 :=
        UGraph.add_edge_uwf g cursor (cursor + 1) hwf (by omega) hc1
      have hn1 := UGraph.add_edge_n g cursor (cursor + 1)
      have hm1 := UGraph.add_edge_m_le g cursor (cursor + 1)
      have hrec := ih _ (cursor + 2) hwf1 (by omega) (by rw [hn1]; omega)
      exact ⟨hrec.1, hrec.2.1.trans hn1, hm1.trans hrec.2.2⟩
    · exact ⟨hwf, rfl, le_refl _⟩

theorem UGraph.retrieve_mem (g : UGraph) {p : ℕ × ℕ}
    (hp : p ∈ g.retrieve_degree_sequence) : p.2 < g.n := by
  unfold UGraph.retrieve_degree_sequence at hp
  have hperm := List.perm_insertionSort pairGE
    ((List.range g.n).map (fun i => ((g.adj i).card, i)))
  rw [hperm.mem_iff, List.mem_map] at hp
  obtain ⟨i, hi, rfl⟩ := hp
  exact List.mem_range.mp hi

theorem UGraph.retrieve_length (g : UGraph) :
    g.retrieve_degree_sequence.length = g.n := by
  unfold UGraph.retrieve_degree_sequence
  rw [(List.perm_insertionSort pairGE _).length_eq, List.length_map, List.length_range]

theorem UGraph.hw_newcount_pos (b : Bool) (md k : ℕ) (hmd : 0 < md) :
    0 < UGraph.hw_newcount b md k := by
  unfold UGraph.hw_newcount
  split_ifs <;> omega

theorem UGraph.hw_newcount_odd (md k : ℕ) :
    UGraph.hw_newcount true md k % 2 = 1 := by
  unfold UGraph.hw_newcount
  rw [if_pos rfl]
  by_cases h1 : md > k
  · rw [if_pos h1]
    by_cases h2 : md % 2 = 1
    · rw [if_pos h2]; exact h2
    · rw [if_neg h2]; omega
  · rw [if_neg h1]
    by_cases h2 : k % 2 = 1
    · rw [if_pos h2]; exact h2
    · rw [if_neg h2]; omega

theorem UGraph.hw_pairing_uwf (g2 : UGraph) (first_new cursor : ℕ) (hwf2 : UWf g2)
    (hfn : first_new < g2.n) (hodd : (g2.n - first_new) % 2 = 1) :
    UWf (UGraph.hw_pairing g2 first_new cursor) ∧
      (UGraph.hw_pairing g2 first_new cursor).n = g2.n ∧
      g2.m ≤ (UGraph.hw_pairing g2 first_new cursor).m := by
  obtain ⟨hwf3, hn3, hm3⟩ := UGraph.pairUp_uwf g2.n g2 cursor hwf2
  unfold UGraph.hw_pairing
  split_ifs with hc
  · have hwf4 : UWf ((UGraph.pairUp g2.n g2 cursor).1.add_edge
        ((UGraph.pairUp g2.n g2 cursor).1.n - 1) first_new).1 :=
      UGraph.add_edge_uwf _ _ _ hwf3 (by omega) (by omega)
    have hn4 := UGraph.add_edge_n (UGraph.pairUp g2.n g2 cursor).1
      ((UGraph.pairUp g2.n g2 cursor).1.n - 1) first_new
    have hm4 := UGraph.add_edge_m_le (UGraph.pairUp g2.n g2 cursor).1
      ((UGraph.pairUp g2.n g2 cursor).1.n - 1) first_new
    have hrec := UGraph.pairUp2_uwf
      (((UGraph.pairUp g2.n g2 cursor).1.add_edge
          ((UGraph.pairUp g2.n g2 cursor).1.n - 1) first_new).1).n
      (((UGraph.pairUp g2.n g2 cursor).1.add_edge
          ((UGraph.pairUp g2.n g2 cursor).1.n - 1) first_new).1)
      (first_new + 1) hwf4 (by omega) (by omega)
    exact ⟨hrec.1, hrec.2.1.trans (hn4.trans hn3), (hm3.trans hm4).trans hrec.2.2⟩
  · exact ⟨hwf3, hn3, hm3⟩

theorem UGraph.hw_phase2_uwf (b : Bool) (k : ℕ) (g2 : UGraph) (first_new cursor : ℕ)
    (hwf2 : UWf g2) (hfn : first_new < g2.n)
    (hpar : b = true → (g2.n - first_new) % 2 = 1) :
    UWf (UGraph.hw_phase2 b k g2 first_new cursor) ∧
      (UGraph.hw_phase2 b k g2 first_new cursor).n = g2.n ∧
      g2.m ≤ (UGraph.hw_phase2 b k g2 first_new cursor).m := by
  unfold UGraph.hw_phase2
  split_ifs with h1 h2
  · exact ⟨hwf2, rfl, le_refl _⟩
  · exact UGraph.hw_pairing_uwf g2 first_new cursor hwf2 hfn (hpar h1.1)
  · exact ⟨hwf2, rfl, le_refl _⟩

theorem UGraph.hide_waldo_uwf (hide_new : Bool) (g : UGraph) (k : ℕ) (hwf : UWf g) :
    UWf (UGraph.hide_waldo hide_new g k) ∧
      g.n ≤ (UGraph.hide_waldo hide_new g k).n ∧
      g.m ≤ (UGraph.hide_waldo hide_new g k).m := by
  unfold UGraph.hide_waldo
  split_ifs with hdef
  · have hids : ∀ i ∈ List.range g.n,
        ((g.retrieve_degree_sequence).getD i (0, 0)).2 < g.n := by
      intro i hi
      have hlen : i < g.retrieve_degree_sequence.length := by
        rw [UGraph.retrieve_length]; exact List.mem_range.mp hi
      have hget : (g.retrieve_degree_sequence).getD i (0, 0)
          ∈ g.retrieve_degree_sequence := by
        rw [List.getD_eq_getElem _ _ hlen]
        exact List.getElem_mem hlen
      exact UGraph.retrieve_mem g hget
    have hcount : 0 < UGraph.hw_newcount hide_new
        (anonymize_degree_sequence g.retrieve_degree_sequence k).1 k :=
      UGraph.hw_newcount_pos _ _ _ hdef
    have hwf1 : UWf (g.add_vertices (UGraph.hw_newcount hide_new
        (anonymize_degree_sequence g.retrieve_degree_sequence k).1 k)) :=
      UGraph.add_vertices_uwf g _ hwf
    have hn1 : (g.add_vertices (UGraph.hw_newcount hide_new
        (anonymize_degree_sequence g.retrieve_degree_sequence k).1 k)).n
        = g.n + UGraph.hw_newcount hide_new
            (anonymize_degree_sequence g.retrieve_degree_sequence k).1 k := rfl
    have hfn1 : g.n < (g.add_vertices (UGraph.hw_newcount hide_new
        (anonymize_degree_sequence g.retrieve_degree_sequence k).1 k)).n := by
      rw [hn1]; omega
    have h2 := UGraph.defLoop_uwf g.n
      (anonymize_degree_sequence g.retrieve_degree_sequence k).2
      g.retrieve_degree_sequence (List.range g.n) _ g.n hwf1 hids hfn1
      (le_refl _) hfn1
    have hph := UGraph.hw_phase2_uwf hide_new k _ g.n
      (UGraph.defLoop g.n (anonymize_degree_sequence g.retrieve_degree_sequence k).2
        g.retrieve_degree_sequence (List.range g.n)
        (g.add_vertices (UGraph.hw_newcount hide_new
          (anonymize_degree_sequence g.retrieve_degree_sequence k).1 k)) g.n).2
      h2.1 (by rw [h2.2.1]; exact hfn1)
      (fun hb => by
        rw [h2.2.1, hn1, hb]
        have hodd := UGraph.hw_newcount_odd
          (anonymize_degree_sequence g.retrieve_degree_sequence k).1 k
        omega)
    refine ⟨hph.1, ?_, ?_⟩
    · rw [hph.2.1, h2.2.1, hn1]; omega
    · calc g.m ≤ _ := h2.2.2.1
        _ ≤ _ := hph.2.2
  · exact ⟨hwf, le_refl _, le_refl _⟩

theorem allPairs_mem {n : ℕ} {p : ℕ × ℕ} (hp : p ∈ allPairs n) : p.1 < n ∧ p.2 < n := by
  unfold allPairs at hp
  rw [List.mem_flatMap] at hp
  obtain ⟨i, hi, hmem⟩ := hp
  rw [List.mem_map] at hmem
  obtain ⟨j, hj, rfl⟩ := hmem
  rw [List.mem_range] at hi
  rw [List.mem_range'_1] at hj
  exact ⟨hi, by omega⟩

theorem UGraph.populate_uniformly_uwf (g : UGraph) (e : ℕ)
    (shuffle : List (ℕ × ℕ) → List (ℕ × ℕ))
    (hsh : ∀ l, ∀ x ∈ shuffle l, x ∈ l) (hwf : UWf g) :
    UWf (g.populate_uniformly e shuffle).1 ∧
      (g.populate_uniformly e shuffle).1.n = g.n ∧
      g.m ≤ (g.populate_uniformly e shuffle).1.m := by
  unfold UGraph.populate_uniformly
  split_ifs with h
  · exact ⟨hwf, rfl, le_refl _⟩
  · exact UGraph.popLoop_uwf e (shuffle (allPairs g.n)) g 0 hwf
      (fun p hp => allPairs_mem (hsh _ p hp))

/-! ## Preservation of the invariants (labelled graph) -/

theorem Graph.add_edge_vcount (g : Graph) (u v : ℕ) : (g.add_edge u v).1.n = g.n := by
  unfold Graph.add_edge
  split_ifs <;> rfl

theorem Graph.add_edge_l (g : Graph) (u v : ℕ) : (g.add_edge u v).1.l = g.l := by
  unfold Graph.add_edge
  split_ifs <;> rfl

theorem Graph.add_edge_labels (g : Graph) (u v : ℕ) :
    (g.add_edge u v).1.labels = g.labels := by
  unfold Graph.add_edge
  split_ifs <;> rfl

theorem Graph.add_edge_mono (g : Graph) (u v : ℕ) : g.m ≤ (g.add_edge u v).1.m := by
  unfold Graph.add_edge
  split_ifs <;> simp

theorem Graph.add_edge_lwf (g : Graph) (u v : ℕ) (hwf : LWf g)
    (hu : u < g.n) (hv : v < g.n) : LWf (g.add_edge u v).1 := by
  by_cases h : v ∈ g.adj u ∨ u = v
  · rw [Graph.add_edge_skip g u v h]; exact hwf
  · have huv : u ≠ v := fun hh => h (Or.inr hh)
    have hvu : v ∉ g.adj u := fun hh => h (Or.inl hh)
    obtain ⟨hloop, hrange, hsym, hsum, hlab⟩ := hwf
    have huadj : u ∉ g.adj v := fun hh => hvu ((hsym u hu v hv).mpr hh)
    rw [Graph.add_edge_ins g u v h]
    refine ⟨?_, ?_, ?_, ?_, hlab⟩
    · intro x hx
      show x ∉ adjInsert g.adj u v x
      rw [adjInsert_mem g.adj u v huv]
      rintro (h1 | ⟨h2, h3⟩ | ⟨h2, h3⟩)
      · exact hloop x hx h1
      · exact huv (h2.symm.trans h3)
      · exact huv (h3.symm.trans h2)
    · intro x hx
      show adjInsert g.adj u v x ⊆ Finset.range g.n
      intro b hb
      rw [adjInsert_mem g.adj u v huv] at hb
      rcases hb with h1 | ⟨-, rfl⟩ | ⟨-, rfl⟩
      · exact hrange x hx h1
      · exact Finset.mem_range.mpr hv
      · exact Finset.mem_range.mpr hu
    · intro a ha b hb
      show b ∈ adjInsert g.adj u v a ↔ a ∈ adjInsert g.adj u v b
      rw [adjInsert_mem g.adj u v huv, adjInsert_mem g.adj u v huv, hsym a ha b hb]
      tauto
    · show 2 * (g.m + 1) = ∑ x in Finset.range g.n, (adjInsert g.adj u v x).card
      rw [Finset.sum_congr rfl (fun x _ => adjInsert_card g.adj u v huv hvu huadj x),
        Finset.sum_add_distrib, Finset.sum_add_distrib,
        Finset.sum_ite_eq' (Finset.range g.n) u (fun _ => 1),
        Finset.sum_ite_eq' (Finset.range g.n) v (fun _ => 1),
        if_pos (Finset.mem_range.mpr hu), if_pos (Finset.mem_range.mpr hv), ← hsum]
      ring

theorem LWf_two_m_le (g : Graph) (hwf : LWf g) : 2 * g.m ≤ g.n * (g.n - 1) := by
  rw [hwf.2.2.2.1]
  calc ∑ u in Finset.range g.n, (g.adj u).card
      ≤ ∑ _u in Finset.range g.n, (g.n - 1) := by
        refine Finset.sum_le_sum ?_
        intro u hu
        have hsub : g.adj u ⊆ (Finset.range g.n).erase u :=
          Finset.subset_erase.mpr
            ⟨hwf.2.1 u (Finset.mem_range.mp hu), hwf.1 u (Finset.mem_range.mp hu)⟩
        calc (g.adj u).card ≤ ((Finset.range g.n).erase u).card := Finset.card_le_card hsub
          _ = g.n - 1 := by rw [Finset.card_erase_of_mem hu, Finset.card_range]
    _ = g.n * (g.n - 1) := by rw [Finset.sum_const, Finset.card_range, smul_eq_mul]

theorem Graph.randLoop_post (g : Graph) (hwf : LWf g) (hn : 0 < g.n) :
    ∀ (draws : List (ℕ × ℕ)) (g1 : Graph), g.randLoop draws = some g1 →
      LWf g1 ∧ g.m ≤ g1.m ∧ g1.n = g.n ∧ g1.l = g.l ∧ g1.labels = g.labels := by
  intro draws
  induction draws with
  | nil => intro g1 h; simp [Graph.randLoop] at h
  | cons p rest ih =>
    intro g1 h
    simp only [Graph.randLoop] at h
    split_ifs at h with hadd
    · cases h
      exact ⟨Graph.add_edge_lwf g _ _ hwf (Nat.mod_lt _ hn) (Nat.mod_lt _ hn),
        Graph.add_edge_mono g _ _, Graph.add_edge_vcount g _ _, Graph.add_edge_l g _ _,
        Graph.add_edge_labels g _ _⟩
    · exact ih g1 h

theorem Graph.add_random_edge_post (g : Graph) (draws : List (ℕ × ℕ)) (g1 : Graph)
    (hwf : LWf g) (h : g.add_random_edge draws = some g1) :
    LWf g1 ∧ g.m ≤ g1.m ∧ g1.n = g.n ∧ g1.l = g.l ∧ g1.labels = g.labels := by
  unfold Graph.add_random_edge at h
  split_ifs at h with hc
  · cases h
    exact ⟨hwf, le_refl _, rfl, rfl, rfl⟩
  · have hn : 0 < g.n := by
      rcases Nat.eq_zero_or_pos g.n with h0 | h0
      · exfalso
        apply hc
        have hm0 : g.m = 0 := by
          have := hwf.2.2.2.1
          rw [h0] at this
          simpa using this
        unfold Graph.is_complete
        rw [hm0, h0]
        rfl
      · exact h0
    exact Graph.randLoop_post g hwf hn draws g1 h

theorem Graph.findMate_post (v lab vmask : ℕ) :
    ∀ (lst : List (ℕ × ℕ)) (g : Graph), LWf g → v < g.n →
      (∀ p ∈ lst, p.1 < g.n) →
      LWf (g.findMate v lab vmask lst).1 ∧
        g.m ≤ (g.findMate v lab vmask lst).1.m ∧
        (g.findMate v lab vmask lst).1.n = g.n ∧
        (g.findMate v lab vmask lst).1.l = g.l ∧
        (g.findMate v lab vmask lst).1.labels = g.labels ∧
        (∀ p ∈ (g.findMate v lab vmask lst).2.1, p.1 < g.n) := by
  intro lst
  induction lst with
  | nil =>
    intro g hwf hv _
    exact ⟨hwf, le_refl _, rfl, rfl, rfl, by simp [Graph.findMate]⟩
  | cons p rest ih =>
    intro g hwf hv hmem
    rcases p with ⟨u, um⟩
    have hu : u < g.n := hmem (u, um) (by simp)
    simp only [Graph.findMate]
    split_ifs with h1 h2
    · refine ⟨Graph.add_edge_lwf g v u hwf hv hu, Graph.add_edge_mono g v u,
        Graph.add_edge_vcount g v u, Graph.add_edge_l g v u, Graph.add_edge_labels g v u, ?_⟩
      intro q hq
      rcases List.mem_cons.mp hq with rfl | hq2
      · exact hu
      · exact hmem q (by simp [hq2])
    · have hrec := ih g hwf hv (fun q hq => hmem q (by simp [hq]))
      refine ⟨hrec.1, hrec.2.1, hrec.2.2.1, hrec.2.2.2.1, hrec.2.2.2.2.1, ?_⟩
      intro q hq
      rcases List.mem_cons.mp hq with rfl | hq2
      · exact hu
      · exact hrec.2.2.2.2.2 q hq2
    · have hrec := ih g hwf hv (fun q hq => hmem q (by simp [hq]))
      refine ⟨hrec.1, hrec.2.1, hrec.2.2.1, hrec.2.2.2.1, hrec.2.2.2.2.1, ?_⟩
      intro q hq
      rcases List.mem_cons.mp hq with rfl | hq2
      · exact hu
      · exact hrec.2.2.2.2.2 q hq2

theorem Graph.processLabels_post (v vmask : ℕ) :
    ∀ (cnt defs : ℕ) (g : Graph) (rest : List (ℕ × ℕ)), LWf g → v < g.n →
      (∀ p ∈ rest, p.1 < g.n) →
      LWf (Graph.processLabels v vmask cnt defs g rest).1 ∧
        g.m ≤ (Graph.processLabels v vmask cnt defs g rest).1.m ∧
        (Graph.processLabels v vmask cnt defs g rest).1.n = g.n ∧
        (Graph.processLabels v vmask cnt defs g rest).1.l = g.l ∧
        (Graph.processLabels v vmask cnt defs g rest).1.labels = g.labels ∧
        (∀ p ∈ (Graph.processLabels v vmask cnt defs g rest).2.1, p.1 < g.n) := by
  intro cnt
  induction cnt with
  | zero =>
    intro defs g rest hwf hv hmem
    exact ⟨hwf, le_refl _, rfl, rfl, rfl, by simpa [Graph.processLabels] using hmem⟩
  | succ cnt ih =>
    intro defs g rest hwf hv hmem
    have hfm := Graph.findMate_post v ((ffs defs + 2 ^ 32 - 1) % 2 ^ 32) vmask rest g
      hwf hv hmem
    simp only [Graph.processLabels]
    have hrec := ih
      (defs ^^^ 2 ^ (((ffs defs + 2 ^ 32 - 1) % 2 ^ 32 + 2 ^ 32 - 1) % 2 ^ 32 % 32))
      (g.findMate v ((ffs defs + 2 ^ 32 - 1) % 2 ^ 32) vmask rest).1
      (g.findMate v ((ffs defs + 2 ^ 32 - 1) % 2 ^ 32) vmask rest).2.1
      hfm.1 (by rw [hfm.2.2.1]; exact hv)
      (fun q hq => by rw [hfm.2.2.1]; exact hfm.2.2.2.2.2 q hq)
    refine ⟨hrec.1, hfm.2.1.trans hrec.2.1, hrec.2.2.1.trans hfm.2.2.1,
      hrec.2.2.2.1.trans hfm.2.2.2.1, hrec.2.2.2.2.1.trans hfm.2.2.2.2.1, ?_⟩
    intro q hq
    rw [← hfm.2.2.1]
    exact hrec.2.2.2.2.2 q hq

theorem Graph.processVisit_post :
    ∀ (fuel : ℕ) (g : Graph) (lst : List (ℕ × ℕ)), LWf g →
      (∀ p ∈ lst, p.1 < g.n) →
      LWf (Graph.processVisit fuel g lst).1 ∧
        g.m ≤ (Graph.processVisit fuel g lst).1.m ∧
        (Graph.processVisit fuel g lst).1.n = g.n ∧
        (Graph.processVisit fuel g lst).1.l = g.l ∧
        (Graph.processVisit fuel g lst).1.labels = g.labels := by
  intro fuel
  induction fuel with
  | zero =>
    intro g lst hwf _
    exact ⟨hwf, le_refl _, rfl, rfl, rfl⟩
  | succ fuel ih =>
    intro g lst hwf hmem
    match lst with
    | [] => exact ⟨hwf, le_refl _, rfl, rfl, rfl⟩
    | (v, defs) :: rest =>
      have hv : v < g.n := hmem (v, defs) (by simp)
      have hpl := Graph.processLabels_post v (2 ^ (g.labels v % 32)) (popcount defs)
        defs g rest hwf hv (fun q hq => hmem q (by simp [hq]))
      simp only [Graph.processVisit]
      have hrec := ih _ _ hpl.1
        (fun q hq => by rw [hpl.2.2.1]; exact hpl.2.2.2.2.2 q hq)
      exact ⟨hrec.1, hpl.2.1.trans hrec.2.1, hrec.2.2.1.trans hpl.2.2.1,
        hrec.2.2.2.1.trans hpl.2.2.2.1, hrec.2.2.2.2.trans hpl.2.2.2.2.1⟩

theorem Graph.run_greedy_iteration_post (g : Graph) (alpha : ℚ)
    (shuffle : List (ℕ × ℕ) → List (ℕ × ℕ))
    (hsh : ∀ l, ∀ x ∈ shuffle l, x ∈ l) (hwf : LWf g) :
    LWf (g.run_greedy_iteration alpha shuffle).1 ∧
      g.m ≤ (g.run_greedy_iteration alpha shuffle).1.m ∧
      (g.run_greedy_iteration alpha shuffle).1.n = g.n ∧
      (g.run_greedy_iteration alpha shuffle).1.l = g.l ∧
      (g.run_greedy_iteration alpha shuffle).1.labels = g.labels := by
  unfold Graph.run_greedy_iteration
  refine Graph.processVisit_post _ g _ hwf ?_
  intro p hp
  have hp2 := hsh _ p hp
  rw [List.mem_filterMap] at hp2
  obtain ⟨i, hi, heq⟩ := hp2
  split_ifs at heq
  cases heq
  exact List.mem_range.mp hi

/-! ## Alpha-proximality facts -/

theorem distance_self (a : List ℕ) : distance a a = 0 := by
  rw [distance, if_neg (by simp)]
  rw [foldl_add_abs (fun i => get_frequency a i - get_frequency a i) _ 0]
  rw [zero_add]
  refine List.sum_eq_zero ?_
  intro x hx
  rw [List.mem_map] at hx
  obtain ⟨i, _, rfl⟩ := hx
  simp

theorem small_graph_proximal (g : Graph) (alpha : ℚ) (hwf : LWf g) (hn : g.n ≤ 1)
    (ha : 0 ≤ alpha) : g.is_alpha_proximal alpha = true := by
  unfold Graph.is_alpha_proximal
  rw [decide_eq_true_eq]
  rcases Nat.le_one_iff_eq_zero_or_eq_one.mp hn with h0 | h1
  · unfold Graph.max_distance
    rw [h0]
    simpa using ha
  · have hadj : g.adj 0 = ∅ := by
      refine Finset.eq_empty_of_forall_not_mem ?_
      intro x hx
      have hx2 := hwf.2.1 0 (by omega) hx
      rw [Finset.mem_range] at hx2
      have hx0 : x = 0 := by omega
      rw [hx0] at hx
      exact hwf.1 0 (by omega) hx
    have heq : g.global_ld = g.neighbourhood_ld 0 := by
      unfold Graph.global_ld Graph.neighbourhood_ld
      refine List.map_congr_left ?_
      intro c _
      rw [h1, hadj]
      have : Finset.range 1 = {0} := rfl
      rw [this]
      rw [Finset.filter_singleton]
      split_ifs with hc
      · simp [hc]
      · simp [hc]
    unfold Graph.max_distance
    rw [h1]
    have hr : List.range 1 = [0] := rfl
    rw [hr, List.foldl_cons, List.foldl_nil, heq, distance_self]
    simpa using ha

theorem complete_graph_proximal (g : Graph) (alpha : ℚ) (hwf : LWf g)
    (hc : g.is_complete = true) (ha : 0 ≤ alpha) :
    g.is_alpha_proximal alpha = true := by
  unfold Graph.is_complete at hc
  rw [beq_iff_eq] at hc
  have hb := LWf_two_m_le g hwf
  have hn : g.n ≤ 1 := by
    rcases Nat.lt_or_ge g.n 2 with h | h
    · omega
    · exfalso
      have h1 : 1 ≤ g.n * (g.n - 1) := Nat.one_le_iff_ne_zero.mpr (by
        have : 1 ≤ g.n - 1 := by omega
        positivity)
      omega
  exact small_graph_proximal g alpha hwf hn ha

theorem Graph.hopefulLoop_post (alpha : ℚ) (draws : ℕ → List (ℕ × ℕ)) :
    ∀ (fuel : ℕ) (g : Graph) (t : ℕ) (g1 : Graph), LWf g →
      Graph.hopefulLoop alpha draws fuel g t = some g1 →
      LWf g1 ∧ g.m ≤ g1.m ∧ g1.n = g.n ∧
        (0 ≤ alpha → g1.is_alpha_proximal alpha = true) := by
  intro fuel
  induction fuel with
  | zero => intro g t g1 hwf h; cases h
  | succ fuel ih =>
    intro g t g1 hwf h
    simp only [Graph.hopefulLoop] at h
    split_ifs at h with h1 h2
    · cases h
      exact ⟨hwf, le_refl _, rfl, fun ha => complete_graph_proximal g alpha hwf h1 ha⟩
    · cases h
      exact ⟨hwf, le_refl _, rfl, fun _ => h2⟩
    · rcases hre : g.add_random_edge (draws t) with _ | g2
      · rw [hre] at h; cases h
      · rw [hre] at h
        have hrp := Graph.add_random_edge_post g (draws t) g2 hwf hre
        have hrec := ih g2 (t + 1) g1 hrp.1 h
        exact ⟨hrec.1, hrp.2.1.trans hrec.2.1, hrec.2.2.1.trans hrp.2.2.1, hrec.2.2.2⟩

theorem Graph.hopeful_post (g : Graph) (alpha : ℚ) (fuel : ℕ)
    (draws : ℕ → List (ℕ × ℕ)) (g1 : Graph) (hwf : LWf g)
    (h : g.hopeful alpha fuel draws = some g1) :
    LWf g1 ∧ g.m ≤ g1.m ∧ g1.n = g.n ∧
      (0 ≤ alpha → g1.is_alpha_proximal alpha = true) := by
  unfold Graph.hopeful at h
  split_ifs at h with h1
  · cases h
    exact ⟨hwf, le_refl _, rfl, fun _ => h1⟩
  · exact Graph.hopefulLoop_post alpha draws fuel g 0 g1 hwf h

theorem Graph.greedyLoop_post (alpha : ℚ)
    (shuffles : ℕ → List (ℕ × ℕ) → List (ℕ × ℕ)) (draws : ℕ → List (ℕ × ℕ))
    (hsh : ∀ t l, ∀ x ∈ shuffles t l, x ∈ l) :
    ∀ (fuel : ℕ) (g : Graph) (t : ℕ) (g1 : Graph), LWf g →
      Graph.greedyLoop alpha shuffles draws fuel g t = some g1 →
      LWf g1 ∧ g.m ≤ g1.m ∧ g1.n = g.n ∧
        (0 ≤ alpha → g1.is_alpha_proximal alpha = true) := by
  intro fuel
  induction fuel with
  | zero => intro g t g1 hwf h; cases h
  | succ fuel ih =>
    intro g t g1 hwf h
    simp only [Graph.greedyLoop] at h
    split_ifs at h with h1 h2 h3
    · cases h
      exact ⟨hwf, le_refl _, rfl, fun ha => complete_graph_proximal g alpha hwf h1 ha⟩
    · cases h
      have hit := Graph.run_greedy_iteration_post g alpha (shuffles t) (hsh t) hwf
      exact ⟨hit.1, hit.2.1, hit.2.2.1, fun _ => h2⟩
    · have hit := Graph.run_greedy_iteration_post g alpha (shuffles t) (hsh t) hwf
      rcases hre : (g.run_greedy_iteration alpha (shuffles t)).1.add_random_edge (draws t)
        with _ | g2
      · rw [hre] at h; cases h
      · rw [hre] at h
        have hrp := Graph.add_random_edge_post _ (draws t) g2 hit.1 hre
        have hrec := ih g2 (t + 1) g1 hrp.1 h
        exact ⟨hrec.1, (hit.2.1.trans hrp.2.1).trans hrec.2.1,
          (hrec.2.2.1.trans hrp.2.2.1).trans hit.2.2.1, hrec.2.2.2⟩
    · have hit := Graph.run_greedy_iteration_post g alpha (shuffles t) (hsh t) hwf
      have hrec := ih _ (t + 1) g1 hit.1 h
      exact ⟨hrec.1, hit.2.1.trans hrec.2.1, hrec.2.2.1.trans hit.2.2.1, hrec.2.2.2⟩

theorem Graph.greedy_post (g : Graph) (alpha : ℚ) (fuel : ℕ)
    (shuffles : ℕ → List (ℕ × ℕ) → List (ℕ × ℕ)) (draws : ℕ → List (ℕ × ℕ))
    (g1 : Graph) (hwf : LWf g)
    (hsh : ∀ t l, ∀ x ∈ shuffles t l, x ∈ l)
    (h : g.greedy alpha fuel shuffles draws = some g1) :
    LWf g1 ∧ g.m ≤ g1.m ∧ g1.n = g.n ∧
      (0 ≤ alpha → g1.is_alpha_proximal alpha = true) := by
  unfold Graph.greedy at h
  split_ifs at h with h1
  · cases h
    exact ⟨hwf, le_refl _, rfl, fun _ => h1⟩
  · exact Graph.greedyLoop_post alpha shuffles draws hsh fuel g 0 g1 hwf h

/-! ## Clustering coefficient: the two computations agree -/

theorem closed_fast_eq_brute (g : UGraph) (hwf : UWf g) :
    g.closed_fast = (g.bruteTriples.filter (fun p => p.2.2 ∈ g.adj p.1)).card := by
  classical
  rw [UGraph.bruteTriples, Finset.filter_filter, Finset.card_filter,
    Finset.sum_product]
  rw [UGraph.closed_fast]
  refine Finset.sum_congr rfl ?_
  intro u hu
  have hun : u < g.n := Finset.mem_range.mp hu
  have hsubP : g.adj u ×ˢ g.adj u ⊆ Finset.range g.n ×ˢ Finset.range g.n :=
    Finset.product_subset_product (hwf.2.1 u hun) (hwf.2.1 u hun)
  rw [Finset.card_filter]
  rw [show ∑ q in g.adj u ×ˢ g.adj u,
        (if q.1 ≠ q.2 ∧ q.2 ∈ g.adj q.1 then 1 else 0)
      = ∑ q in g.adj u ×ˢ g.adj u,
        (if (u ≠ q.1 ∧ u ≠ q.2 ∧ q.1 ≠ q.2 ∧ q.1 ∈ g.adj u ∧ q.2 ∈ g.adj q.1)
            ∧ q.2 ∈ g.adj u then 1 else 0) from ?_]
  · refine Finset.sum_subset hsubP ?_
    intro q _ hnq
    rw [if_neg]
    rintro ⟨⟨_, _, _, hq1, _⟩, hq2⟩
    exact hnq (Finset.mem_product.mpr ⟨hq1, hq2⟩)
  · refine Finset.sum_congr rfl ?_
    intro q hq
    rw [Finset.mem_product] at hq
    have h1 : q.1 < g.n := Finset.mem_range.mp (hwf.2.1 u hun hq.1)
    have h2 : q.2 < g.n := Finset.mem_range.mp (hwf.2.1 u hun hq.2)
    refine if_congr ?_ rfl rfl
    constructor
    · rintro ⟨hne, hcl⟩
      have hu1 : u ≠ q.1 := fun h => hwf.1 q.1 h1 (h ▸ hq.1)
      have hu2 : u ≠ q.2 := fun h => hwf.1 q.2 h2 (h ▸ hq.2)
      exact ⟨⟨hu1, hu2, hne, hq.1, hcl⟩, hq.2⟩
    · rintro ⟨⟨_, _, hne, _, hcl⟩, _⟩
      exact ⟨hne, hcl⟩

theorem possible_fast_eq_brute (g : UGraph) (hwf : UWf g) :
    g.possible_fast = g.bruteTriples.card := by
  classical
  rw [UGraph.bruteTriples, Finset.card_filter, Finset.sum_product]
  have hstep : ∀ u ∈ Finset.range g.n,
      (∑ q in Finset.range g.n ×ˢ Finset.range g.n,
        if u ≠ q.1 ∧ u ≠ q.2 ∧ q.1 ≠ q.2 ∧ q.1 ∈ g.adj u ∧ q.2 ∈ g.adj q.1
        then (1 : ℕ) else 0)
      = ∑ v in Finset.range g.n, ∑ w in Finset.range g.n,
          (if u ∈ g.adj v ∧ w ∈ g.adj v ∧ u ≠ w then (1 : ℕ) else 0) := by
    intro u hu
    have hun : u < g.n := Finset.mem_range.mp hu
    rw [Finset.sum_product]
    refine Finset.sum_congr rfl ?_
    intro v hv
    have hvn : v < g.n := Finset.mem_range.mp hv
    refine Finset.sum_congr rfl ?_
    intro w hw
    have hwn : w < g.n := Finset.mem_range.mp hw
    refine if_congr ?_ rfl rfl
    constructor
    · rintro ⟨_, huw, _, hvu, hwv⟩
      exact ⟨(hwf.2.2.1 u hun v hvn).mp hvu, hwv, huw⟩
    · rintro ⟨huv, hwv, huw⟩
      have hvu : v ∈ g.adj u := (hwf.2.2.1 u hun v hvn).mpr huv
      have hne1 : u ≠ v := fun h => hwf.1 v hvn (h ▸ huv)
      have hne2 : v ≠ w := fun h => hwf.1 v hvn (h ▸ hwv)
      exact ⟨hne1, huw, hne2, hvu, hwv⟩
  rw [Finset.sum_congr rfl hstep, Finset.sum_comm, UGraph.possible_fast]
  refine Finset.sum_congr rfl ?_
  intro v hv
  have hvn : v < g.n := Finset.mem_range.mp hv
  have hoffd : (g.adj v).offDiag
      = (Finset.range g.n ×ˢ Finset.range g.n).filter
          (fun q => q.1 ∈ g.adj v ∧ q.2 ∈ g.adj v ∧ q.1 ≠ q.2) := by
    ext q
    rw [Finset.mem_offDiag, Finset.mem_filter, Finset.mem_product]
    constructor
    · rintro ⟨h1, h2, h3⟩
      exact ⟨⟨hwf.2.1 v hvn h1, hwf.2.1 v hvn h2⟩, h1, h2, h3⟩
    · rintro ⟨_, h1, h2, h3⟩
      exact ⟨h1, h2, h3⟩
  have hcard : (g.adj v).card * ((g.adj v).card - 1)
      = ∑ u in Finset.range g.n, ∑ w in Finset.range g.n,
          (if u ∈ g.adj v ∧ w ∈ g.adj v ∧ u ≠ w then (1 : ℕ) else 0) := by
    rw [← Finset.sum_product (Finset.range g.n) (Finset.range g.n)
        (fun q => if q.1 ∈ g.adj v ∧ q.2 ∈ g.adj v ∧ q.1 ≠ q.2 then (1 : ℕ) else 0),
      ← Finset.card_filter, ← hoffd, Finset.offDiag_card, Nat.mul_sub, Nat.mul_one]
  rw [hcard]

/-- Claim C9: `clustering_coefficient()` and
`clustering_coefficient_brute_force()` return exactly the same value: the
closed ordered-triple counts agree, and the open-triple denominator
`Σ deg(u)(deg(u)-1)` equals the brute-force count of ordered triples
`(u, v, w)` with edges `u-v` and `v-w`. -/
theorem claim_C9_clustering_coefficient (g : UGraph) (hwf : UWf g) :
    g.clustering_coefficient = g.clustering_coefficient_brute_force ∧
    g.closed_fast = (g.bruteTriples.filter (fun p => p.2.2 ∈ g.adj p.1)).card ∧
    g.possible_fast = g.bruteTriples.card := by
  refine ⟨?_, closed_fast_eq_brute g hwf, possible_fast_eq_brute g hwf⟩
  rw [UGraph.clustering_coefficient, UGraph.clustering_coefficient_brute_force,
    closed_fast_eq_brute g hwf, possible_fast_eq_brute g hwf]

/-- Witness for C9: the triangle graph, where both computations return 1. -/
theorem claim_C9_clustering_coefficient_witness :
    (UGraph.clustering_coefficient
        ⟨3, fun x => if x = 0 then {1, 2} else if x = 1 then {0, 2} else if x = 2 then {0, 1}
          else ∅, 3⟩
      = UGraph.clustering_coefficient_brute_force
        ⟨3, fun x => if x = 0 then {1, 2} else if x = 1 then {0, 2} else if x = 2 then {0, 1}
          else ∅, 3⟩) :=
  (claim_C9_clustering_coefficient _ (by decide)).1

/-! ## Dynamic-programming table facts -/

theorem dpTable_length (d : ℕ → ℕ) (k : ℕ) : ∀ t, (dpTable d k t).length = t := by
  intro t
  induction t with
  | zero => rfl
  | succ t ih => simp [dpTable, ih]

theorem dpTable_getD (d : ℕ → ℕ) (k : ℕ) :
    ∀ t i, i < t → (dpTable d k t).getD i (0, 0) = (dpCost d k i, dpStart d k i) := by
  intro t
  induction t with
  | zero => intro i hi; omega
  | succ t ih =>
    intro i hi
    rcases Nat.lt_or_ge i t with h | h
    · rw [dpTable, List.getD_append _ _ _ _ (by rw [dpTable_length]; exact h)]
      exact ih i h
    · have hit : i = t := by omega
      subst hit
      rw [dpTable, List.getD_append_right _ _ _ _ (by rw [dpTable_length])]
      rw [dpTable_length]
      simp [dpCost, dpStart]

theorem dpEntry_trivial (d : ℕ → ℕ) (k i : ℕ) (hk : 1 ≤ k) (hi : i + 1 < 2 * k) :
    dpCost d k i = d 0 - d i ∧ dpStart d k i = 0 := by
  unfold dpCost dpStart dpEntry
  rw [if_pos (show i < 2 * k - 1 by omega)]
  exact ⟨rfl, rfl⟩

theorem splitStep_invariant (d : ℕ → ℕ) (i : ℕ) (tbl : List (ℕ × ℕ)) (lo hi2 : ℕ)
    (acc : ℕ × ℕ × ℕ) (j : ℕ) (hj1 : lo ≤ j) (hj2 : j + 1 ≤ hi2)
    (h1 : lo ≤ acc.1) (h2 : acc.1 ≤ hi2)
    (h3 : acc.2.1 = max ((tbl.getD (acc.1 - 1) (0, 0)).1) (d acc.1 - d i)) :
    lo ≤ (splitStep d i tbl acc j).1 ∧ (splitStep d i tbl acc j).1 ≤ hi2 ∧
      (splitStep d i tbl acc j).2.1
        = max ((tbl.getD ((splitStep d i tbl acc j).1 - 1) (0, 0)).1)
            (d (splitStep d i tbl acc j).1 - d i) := by
  unfold splitStep
  split_ifs with hc
  · refine ⟨by omega, by omega, ?_⟩
    show max ((tbl.getD j (0, 0)).1) (d (j + 1) - d i)
      = max ((tbl.getD (j + 1 - 1) (0, 0)).1) (d (j + 1) - d i)
    rw [Nat.add_sub_cancel]
  · exact ⟨h1, h2, h3⟩

theorem dpEntry_split (d : ℕ → ℕ) (k i : ℕ) (hk : 1 ≤ k) (hi : 2 * k ≤ i + 1) :
    k ≤ dpStart d k i ∧ dpStart d k i ≤ i + 1 - k ∧
      dpCost d k i
        = max (((dpTable d k i).getD (dpStart d k i - 1) (0, 0)).1)
            (d (dpStart d k i) - d i) := by
  have hnottriv : ¬(i < 2 * k - 1) := by omega
  have hkey := foldl_invariant
    (fun acc : ℕ × ℕ × ℕ =>
      max (k - 1) (i + 1 - 2 * k) + 1 ≤ acc.1 ∧ acc.1 ≤ (i - k) + 1 ∧
        acc.2.1 = max (((dpTable d k i).getD (acc.1 - 1) (0, 0)).1) (d acc.1 - d i))
    (splitStep d i (dpTable d k i))
    (List.range' (max (k - 1) (i + 1 - 2 * k) + 1)
      (i - k - max (k - 1) (i + 1 - 2 * k)))
    (max (k - 1) (i + 1 - 2 * k) + 1,
      max (((dpTable d k i).getD (max (k - 1) (i + 1 - 2 * k)) (0, 0)).1)
        (d (max (k - 1) (i + 1 - 2 * k) + 1) - d i),
      ((dpTable d k i).getD (max (k - 1) (i + 1 - 2 * k)) (0, 0)).1
        + (d (max (k - 1) (i + 1 - 2 * k) + 1) - d i))
    ⟨le_refl _, by omega, by rw [Nat.add_sub_cancel]⟩
    (by
      intro acc j hj hP
      rw [List.mem_range'_1] at hj
      exact splitStep_invariant d i (dpTable d k i) _ _ acc j (by omega) (by omega)
        hP.1 hP.2.1 hP.2.2)
  have hS : dpStart d k i
      = ((List.range' (max (k - 1) (i + 1 - 2 * k) + 1)
          (i - k - max (k - 1) (i + 1 - 2 * k))).foldl
        (splitStep d i (dpTable d k i))
        (max (k - 1) (i + 1 - 2 * k) + 1,
          max (((dpTable d k i).getD (max (k - 1) (i + 1 - 2 * k)) (0, 0)).1)
            (d (max (k - 1) (i + 1 - 2 * k) + 1) - d i),
          ((dpTable d k i).getD (max (k - 1) (i + 1 - 2 * k)) (0, 0)).1
            + (d (max (k - 1) (i + 1 - 2 * k) + 1) - d i))).1 := by
    unfold dpStart dpEntry
    rw [if_neg hnottriv]
  have hC : dpCost d k i
      = ((List.range' (max (k - 1) (i + 1 - 2 * k) + 1)
          (i - k - max (k - 1) (i + 1 - 2 * k))).foldl
        (splitStep d i (dpTable d k i))
        (max (k - 1) (i + 1 - 2 * k) + 1,
          max (((dpTable d k i).getD (max (k - 1) (i + 1 - 2 * k)) (0, 0)).1)
            (d (max (k - 1) (i + 1 - 2 * k) + 1) - d i),
          ((dpTable d k i).getD (max (k - 1) (i + 1 - 2 * k)) (0, 0)).1
            + (d (max (k - 1) (i + 1 - 2 * k) + 1) - d i))).2.1 := by
    unfold dpCost dpEntry
    rw [if_neg hnottriv]
  rw [hS, hC]
  exact ⟨by omega, by omega, hkey.2.2⟩

theorem dpStarts_lt (d : ℕ → ℕ) (k n i : ℕ) (hi : i < n) :
    dpStarts d k n i = dpStart d k i := by
  unfold dpStarts
  rw [dpTable_getD d k n i hi]

theorem listFoldrMax_le {l : List ℕ} {x : ℕ} (hx : x ∈ l) : x ≤ l.foldr max 0 := by
  induction l with
  | nil => cases hx
  | cons y ys ih =>
    rcases List.mem_cons.mp hx with rfl | h
    · exact le_max_left _ _
    · exact (ih h).trans (le_max_right _ _)

theorem listFoldrMax_mem (l : List ℕ) : l.foldr max 0 = 0 ∨ l.foldr max 0 ∈ l := by
  induction l with
  | nil => exact Or.inl rfl
  | cons y ys ih =>
    rcases le_or_lt (ys.foldr max 0) y with h | h
    · right
      rw [List.foldr_cons, Nat.max_eq_left h]
      simp
    · rw [List.foldr_cons, Nat.max_eq_right (le_of_lt h)]
      rcases ih with h2 | h2
      · exact Or.inl h2
      · exact Or.inr (List.mem_cons_of_mem y h2)

theorem listFoldrMin_le (l : List ℕ) (c : ℕ) :
    l.foldr min c ≤ c ∧ ∀ x ∈ l, l.foldr min c ≤ x := by
  induction l with
  | nil => exact ⟨le_refl c, by simp⟩
  | cons y ys ih =>
    rw [List.foldr_cons]
    refine ⟨(min_le_right _ _).trans ih.1, ?_⟩
    intro x hx
    rcases List.mem_cons.mp hx with rfl | h
    · exact min_le_left _ _
    · exact (min_le_right _ _).trans (ih.2 x h)

theorem listFoldrMin_mem (l : List ℕ) (c : ℕ) :
    l.foldr min c = c ∨ l.foldr min c ∈ l := by
  induction l with
  | nil => exact Or.inl rfl
  | cons y ys ih =>
    rw [List.foldr_cons]
    rcases le_or_lt y (ys.foldr min c) with h | h
    · right
      rw [Nat.min_eq_left h]
      simp
    · rw [Nat.min_eq_right (le_of_lt h)]
      rcases ih with h2 | h2
      · exact Or.inl h2
      · exact Or.inr (List.mem_cons_of_mem y h2)

/-- The maximum degree within block `b` (positions `b.1 .. b.2`). -/
def blockMaxDeg (d : ℕ → ℕ) (b : ℕ × ℕ) : ℕ :=
  ((List.range' b.1 (b.2 + 1 - b.1)).map d).foldr max 0

/-- The minimum degree within block `b` (positions `b.1 .. b.2`). -/
def blockMinDeg (d : ℕ → ℕ) (b : ℕ × ℕ) : ℕ :=
  ((List.range' b.1 (b.2 + 1 - b.1)).map d).foldr min (d b.1)

theorem blockMaxDeg_eq (d : ℕ → ℕ) (n : ℕ) (b : ℕ × ℕ)
    (hsort : ∀ j < n, ∀ i ≤ j, d j ≤ d i) (h1 : b.1 ≤ b.2) (h2 : b.2 < n) :
    blockMaxDeg d b = d b.1 := by
  have hmem : d b.1 ∈ (List.range' b.1 (b.2 + 1 - b.1)).map d := by
    refine List.mem_map_of_mem d ?_
    rw [List.mem_range'_1]
    omega
  have hle : ∀ x ∈ (List.range' b.1 (b.2 + 1 - b.1)).map d, x ≤ d b.1 := by
    intro x hx
    rw [List.mem_map] at hx
    obtain ⟨j, hj, rfl⟩ := hx
    rw [List.mem_range'_1] at hj
    exact hsort j (by omega) b.1 (by omega)
  refine le_antisymm ?_ (listFoldrMax_le hmem)
  rcases listFoldrMax_mem ((List.range' b.1 (b.2 + 1 - b.1)).map d) with h | h
  · rw [blockMaxDeg, h]; omega
  · exact hle _ h

theorem blockMinDeg_eq (d : ℕ → ℕ) (n : ℕ) (b : ℕ × ℕ)
    (hsort : ∀ j < n, ∀ i ≤ j, d j ≤ d i) (h1 : b.1 ≤ b.2) (h2 : b.2 < n) :
    blockMinDeg d b = d b.2 := by
  have hmem : d b.2 ∈ (List.range' b.1 (b.2 + 1 - b.1)).map d := by
    refine List.mem_map_of_mem d ?_
    rw [List.mem_range'_1]
    omega
  have hge : ∀ x ∈ (List.range' b.1 (b.2 + 1 - b.1)).map d, d b.2 ≤ x := by
    intro x hx
    rw [List.mem_map] at hx
    obtain ⟨j, hj, rfl⟩ := hx
    rw [List.mem_range'_1] at hj
    exact hsort b.2 h2 j (by omega)
  refine le_antisymm ((listFoldrMin_le _ _).2 _ hmem) ?_
  rcases listFoldrMin_mem ((List.range' b.1 (b.2 + 1 - b.1)).map d) (d b.1) with h | h
  · rw [blockMinDeg, h]
    exact hsort b.2 h2 b.1 h1
  · exact hge _ h

theorem dpBlocks_facts (d : ℕ → ℕ) (k n : ℕ) (hk : 1 ≤ k) :
    ∀ (fuel i : ℕ), i < fuel → i < n → k - 1 ≤ i →
      (∀ b ∈ blocksAux (dpStarts d k n) fuel i,
        b.1 ≤ b.2 ∧ b.2 ≤ i ∧ b.1 + k ≤ b.2 + 1) ∧
      (∀ j ≤ i, ∃ b ∈ blocksAux (dpStarts d k n) fuel i, b.1 ≤ j ∧ j ≤ b.2) ∧
      dpCost d k i
        = ((blocksAux (dpStarts d k n) fuel i).map (fun b => d b.1 - d b.2)).foldr max 0 := by
  intro fuel
  induction fuel with
  | zero => intro i hif; omega
  | succ fuel ih =>
    intro i hif hin hki
    have hseq : dpStarts d k n i = dpStart d k i := dpStarts_lt d k n i hin
    rcases Nat.lt_or_ge (i + 1) (2 * k) with htriv | hsplit
    · have h0 := dpEntry_trivial d k i hk htriv
      have hbl : blocksAux (dpStarts d k n) (fuel + 1) i = [(0, i)] := by
        simp only [blocksAux]
        rw [hseq, h0.2, if_pos (Or.inl rfl)]
      rw [hbl]
      refine ⟨?_, ?_, ?_⟩
      · intro b hb
        rw [List.mem_singleton] at hb
        subst hb
        refine ⟨by omega, by omega, by omega⟩
      · intro j hj
        exact ⟨(0, i), by simp, by omega, by omega⟩
      · rw [h0.1]
        simp
    · have hsp := dpEntry_split d k i hk hsplit
      have hs1 : k ≤ dpStart d k i := hsp.1
      have hs2 : dpStart d k i ≤ i + 1 - k := hsp.2.1
      have hsle : dpStart d k i ≤ i := by omega
      have hbl : blocksAux (dpStarts d k n) (fuel + 1) i
          = (dpStart d k i, i) :: blocksAux (dpStarts d k n) fuel (dpStart d k i - 1) := by
        simp only [blocksAux]
        rw [hseq, if_neg (by push_neg; omega)]
      have hrec := ih (dpStart d k i - 1) (by omega) (by omega) (by omega)
      rw [hbl]
      refine ⟨?_, ?_, ?_⟩
      · intro b hb
        rcases List.mem_cons.mp hb with rfl | hb2
        · exact ⟨hsle, le_refl _, by omega⟩
        · have := hrec.1 b hb2
          exact ⟨this.1, by omega, this.2.2⟩
      · intro j hj
        rcases le_or_lt (dpStart d k i) j with hge | hlt
        · exact ⟨(dpStart d k i, i), by simp, hge, hj⟩
        · obtain ⟨b, hb, hb1, hb2⟩ := hrec.2.1 j (by omega)
          exact ⟨b, List.mem_cons_of_mem _ hb, hb1, hb2⟩
      · rw [hsp.2.2, dpTable_getD d k i (dpStart d k i - 1) (by omega)]
        rw [List.map_cons, List.foldr_cons]
        show max (dpCost d k (dpStart d k i - 1)) (d (dpStart d k i) - d i)
          = max (d (dpStart d k i) - d i) _
        rw [hrec.2.2, Nat.max_comm]

theorem modify_getD_ne (f : ℕ × ℕ → ℕ × ℕ) (p j : ℕ) (l : List (ℕ × ℕ)) (h : p ≠ j) :
    (List.modify f p l).getD j (0, 0) = l.getD j (0, 0) := by
  rw [List.getD_eq_getElem?_getD, List.getD_eq_getElem?_getD, List.getElem?_modify]
  cases l[j]? with
  | none => rfl
  | some a => simp [h]

theorem modify_getD_eq (f : ℕ × ℕ → ℕ × ℕ) (p : ℕ) (l : List (ℕ × ℕ))
    (h : p < l.length) : (List.modify f p l).getD p (0, 0) = f (l.getD p (0, 0)) := by
  rw [List.getD_eq_getElem?_getD, List.getElem?_modify,
    List.getElem?_eq_getElem h, List.getD_eq_getElem l (0, 0) h]
  simp

theorem msetFold_length (B : ℕ) :
    ∀ (L : List ℕ) (ds : List (ℕ × ℕ)),
      (L.foldl (fun ds2 j => List.modify (fun p => (B, p.2)) j ds2) ds).length
        = ds.length := by
  intro L
  induction L with
  | nil => intro ds; rfl
  | cons p rest ih =>
    intro ds
    rw [List.foldl_cons, ih, List.length_modify]

theorem msetFold_getD_not_mem (B : ℕ) :
    ∀ (L : List ℕ) (ds : List (ℕ × ℕ)) (j : ℕ), j ∉ L →
      (L.foldl (fun ds2 j2 => List.modify (fun p => (B, p.2)) j2 ds2) ds).getD j (0, 0)
        = ds.getD j (0, 0) := by
  intro L
  induction L with
  | nil => intro ds j _; rfl
  | cons p rest ih =>
    intro ds j hj
    rw [List.foldl_cons, ih _ j (fun hh => hj (List.mem_cons_of_mem p hh)),
      modify_getD_ne _ p j ds (fun hh => hj (hh ▸ List.mem_cons_self p rest))]

theorem msetFold_getD_mem (B : ℕ) :
    ∀ (L : List ℕ), L.Nodup → ∀ (ds : List (ℕ × ℕ)) (j : ℕ), j ∈ L → j < ds.length →
      (L.foldl (fun ds2 j2 => List.modify (fun p => (B, p.2)) j2 ds2) ds).getD j (0, 0)
        = (B, (ds.getD j (0, 0)).2) := by
  intro L
  induction L with
  | nil => intro _ ds j hj; cases hj
  | cons p rest ih =>
    intro hnd ds j hj hlen
    rw [List.nodup_cons] at hnd
    rw [List.foldl_cons]
    rcases List.mem_cons.mp hj with rfl | hj2
    · rw [msetFold_getD_not_mem B rest _ j hnd.1,
        modify_getD_eq _ j ds hlen]
    · by_cases hpj : p = j
      · subst hpj
        exact absurd hj2 hnd.1
      · rw [ih hnd.2 _ j hj2 (by rw [List.length_modify]; exact hlen),
          modify_getD_ne _ p j ds hpj]

theorem rewriteBlock_length (b : ℕ × ℕ) (ds : List (ℕ × ℕ)) :
    (rewriteBlock b ds).length = ds.length :=
  msetFold_length _ _ ds

theorem rewriteBlock_getD_out (b : ℕ × ℕ) (ds : List (ℕ × ℕ)) (j : ℕ)
    (h : j < b.1 + 1 ∨ b.2 < j) :
    (rewriteBlock b ds).getD j (0, 0) = ds.getD j (0, 0) := by
  refine msetFold_getD_not_mem _ _ ds j ?_
  rw [List.mem_range'_1]
  omega

theorem rewriteBlock_getD_in (b : ℕ × ℕ) (ds : List (ℕ × ℕ)) (j : ℕ)
    (h1 : b.1 + 1 ≤ j) (h2 : j ≤ b.2) (h3 : j < ds.length) :
    (rewriteBlock b ds).getD j (0, 0)
      = ((ds.getD b.1 (0, 0)).1, (ds.getD j (0, 0)).2) := by
  refine msetFold_getD_mem _ _ (List.nodup_range' _ _) ds j ?_ h3
  rw [List.mem_range'_1]
  omega

theorem applyBlocks_chain (d : ℕ → ℕ) (k n : ℕ) (hk : 1 ≤ k) :
    ∀ (fuel i : ℕ), i < fuel → i < n → k - 1 ≤ i →
      ∀ ds2 : List (ℕ × ℕ), ds2.length = n →
        (∀ j ≤ i, (ds2.getD j (0, 0)).1 = d j) →
        (applyBlocks (blocksAux (dpStarts d k n) fuel i) ds2).length = n ∧
        (∀ j, i < j →
          (applyBlocks (blocksAux (dpStarts d k n) fuel i) ds2).getD j (0, 0)
            = ds2.getD j (0, 0)) ∧
        (∀ b ∈ blocksAux (dpStarts d k n) fuel i, ∀ p, b.1 ≤ p → p ≤ b.2 →
          ((applyBlocks (blocksAux (dpStarts d k n) fuel i) ds2).getD p (0, 0)).1
            = d b.1) := by
  intro fuel
  induction fuel with
  | zero => intro i hif; omega
  | succ fuel ih =>
    intro i hif hin hki ds2 hlen hagree
    have hseq : dpStarts d k n i = dpStart d k i := dpStarts_lt d k n i hin
    rcases Nat.lt_or_ge (i + 1) (2 * k) with htriv | hsplit
    · have h0 := dpEntry_trivial d k i hk htriv
      have hbl : blocksAux (dpStarts d k n) (fuel + 1) i = [(0, i)] := by
        simp only [blocksAux]
        rw [hseq, h0.2, if_pos (Or.inl rfl)]
      rw [hbl]
      have hap : applyBlocks [(0, i)] ds2 = rewriteBlock (0, i) ds2 := rfl
      rw [hap]
      refine ⟨(rewriteBlock_length _ _).trans hlen, ?_, ?_⟩
      · intro j hj
        exact rewriteBlock_getD_out (0, i) ds2 j (Or.inr hj)
      · intro b hb p hp1 hp2
        rw [List.mem_singleton] at hb
        subst hb
        rcases Nat.eq_zero_or_pos p with rfl | hp
        · rw [rewriteBlock_getD_out (0, i) ds2 0 (Or.inl (by omega))]
          exact hagree 0 (by omega)
        · rw [rewriteBlock_getD_in (0, i) ds2 p (by omega) hp2 (by omega)]
          exact hagree 0 (by omega)
    · have hsp := dpEntry_split d k i hk hsplit
      have hs1 : k ≤ dpStart d k i := hsp.1
      have hs2 : dpStart d k i ≤ i + 1 - k := hsp.2.1
      have hbl : blocksAux (dpStarts d k n) (fuel + 1) i
          = (dpStart d k i, i) :: blocksAux (dpStarts d k n) fuel (dpStart d k i - 1) := by
        simp only [blocksAux]
        rw [hseq, if_neg (by push_neg; omega)]
      rw [hbl]
      have hap : applyBlocks ((dpStart d k i, i)
            :: blocksAux (dpStarts d k n) fuel (dpStart d k i - 1)) ds2
          = applyBlocks (blocksAux (dpStarts d k n) fuel (dpStart d k i - 1))
              (rewriteBlock (dpStart d k i, i) ds2) := rfl
      rw [hap]
      have hlen3 : (rewriteBlock (dpStart d k i, i) ds2).length = n :=
        (rewriteBlock_length _ _).trans hlen
      have hagree3 : ∀ j ≤ dpStart d k i - 1,
          ((rewriteBlock (dpStart d k i, i) ds2).getD j (0, 0)).1 = d j := by
        intro j hj
        rw [rewriteBlock_getD_out (dpStart d k i, i) ds2 j (Or.inl (by omega))]
        exact hagree j (by omega)
      have hrec := ih (dpStart d k i - 1) (by omega) (by omega) (by omega)
        (rewriteBlock (dpStart d k i, i) ds2) hlen3 hagree3
      refine ⟨hrec.1, ?_, ?_⟩
      · intro j hj
        rw [hrec.2.1 j (by omega)]
        exact rewriteBlock_getD_out (dpStart d k i, i) ds2 j (Or.inr hj)
      · intro b hb p hp1 hp2
        rcases List.mem_cons.mp hb with hbe | hb2
        · have hb1 : b.1 = dpStart d k i := by rw [hbe]
          have hb2e : b.2 = i := by rw [hbe]
          rw [hrec.2.1 p (by omega)]
          rcases Nat.eq_or_lt_of_le hp1 with hpe | hlt
          · have hpd : p = dpStart d k i := by omega
            rw [rewriteBlock_getD_out (dpStart d k i, i) ds2 p (Or.inl (by omega)),
              hagree p (by omega), hpd, hb1]
          · rw [rewriteBlock_getD_in (dpStart d k i, i) ds2 p (by omega) (by omega)
              (by omega)]
            show (ds2.getD (dpStart d k i) (0, 0)).1 = d b.1
            rw [hagree (dpStart d k i) (by omega), hb1]
        · exact hrec.2.2 b hb2 p hp1 hp2

/-! ## Claim theorems: the anonymization engines -/

/-- Claim C3: for every degree sequence sorted in descending order (of
length `n`) and every `k` with `2k ≤ n`, after
`anonymize_degree_sequence(degrees, k)`: every value in the rewritten
sequence occurs at ≥ `k` positions (so every distinct value has
multiplicity ≥ `k`); every block chosen by the DP's backward pass has
size ≥ `k`; and the returned cost is the maximum over the chosen blocks
of (max degree in block) − (min degree in block). -/
theorem claim_C3_anonymize_dp (ds : List (ℕ × ℕ)) (k : ℕ)
    (hk : 1 ≤ k) (hn : 2 * k ≤ ds.length)
    (hsort : ∀ j < ds.length, ∀ i ≤ j, degAt ds j ≤ degAt ds i) :
    (∀ j < ds.length,
      k ≤ ((Finset.range ds.length).filter
        (fun p => degAt (anonymize_degree_sequence ds k).2 p
          = degAt (anonymize_degree_sequence ds k).2 j)).card) ∧
    (∀ b ∈ dpBlocks (degAt ds) k ds.length, k ≤ b.2 + 1 - b.1) ∧
    (anonymize_degree_sequence ds k).1
      = ((dpBlocks (degAt ds) k ds.length).map
          (fun b => blockMaxDeg (degAt ds) b - blockMinDeg (degAt ds) b)).foldr max 0 := by
  have hne : ¬(ds.length < 2 * k) := by omega
  have hA2 : (anonymize_degree_sequence ds k).2
      = applyBlocks (dpBlocks (degAt ds) k ds.length) ds := by
    unfold anonymize_degree_sequence
    rw [if_neg hne]
  have hC1 : (anonymize_degree_sequence ds k).1
      = ((dpTable (degAt ds) k ds.length).getD (ds.length - 1) (0, 0)).1 := by
    unfold anonymize_degree_sequence
    rw [if_neg hne]
  have hF := dpBlocks_facts (degAt ds) k ds.length hk ds.length (ds.length - 1)
    (by omega) (by omega) (by omega)
  have hA := applyBlocks_chain (degAt ds) k ds.length hk ds.length (ds.length - 1)
    (by omega) (by omega) (by omega) ds rfl (fun j _ => rfl)
  refine ⟨?_, ?_, ?_⟩
  · intro j hj
    simp only [hA2]
    obtain ⟨b, hb, hb1, hb2⟩ := hF.2.1 j (by omega)
    have hBB := hF.1 b hb
    have hsub : Finset.Icc b.1 b.2 ⊆ (Finset.range ds.length).filter
        (fun p => degAt (applyBlocks (dpBlocks (degAt ds) k ds.length) ds) p
          = degAt (applyBlocks (dpBlocks (degAt ds) k ds.length) ds) j) := by
      intro p hp
      rw [Finset.mem_Icc] at hp
      rw [Finset.mem_filter, Finset.mem_range]
      refine ⟨by omega, ?_⟩
      have h1 : degAt (applyBlocks (dpBlocks (degAt ds) k ds.length) ds) p
          = degAt ds b.1 := hA.2.2 b hb p hp.1 hp.2
      have h2 : degAt (applyBlocks (dpBlocks (degAt ds) k ds.length) ds) j
          = degAt ds b.1 := hA.2.2 b hb j hb1 hb2
      rw [h1, h2]
    have hcard : (Finset.Icc b.1 b.2).card = b.2 + 1 - b.1 := Nat.card_Icc b.1 b.2
    calc k ≤ (Finset.Icc b.1 b.2).card := by omega
    _ ≤ _ := Finset.card_le_card hsub
  · intro b hb
    have hBB := hF.1 b hb
    omega
  · rw [hC1, dpTable_getD (degAt ds) k ds.length (ds.length - 1) (by omega)]
    show dpCost (degAt ds) k (ds.length - 1) = _
    have hmap : (dpBlocks (degAt ds) k ds.length).map
          (fun b => degAt ds b.1 - degAt ds b.2)
        = (dpBlocks (degAt ds) k ds.length).map
          (fun b => blockMaxDeg (degAt ds) b - blockMinDeg (degAt ds) b) := by
      refine List.map_congr_left ?_
      intro b hb
      have hBB := hF.1 b hb
      rw [blockMaxDeg_eq (degAt ds) ds.length b hsort hBB.1 (by omega),
        blockMinDeg_eq (degAt ds) ds.length b hsort hBB.1 (by omega)]
    rw [hF.2.2]
    exact congrArg (fun l => l.foldr max 0) hmap

theorem claim_C3_anonymize_dp_witness :
    (∀ j < ([(3, 0), (3, 1), (1, 2), (1, 3)] : List (ℕ × ℕ)).length,
      2 ≤ ((Finset.range ([(3, 0), (3, 1), (1, 2), (1, 3)] : List (ℕ × ℕ)).length).filter
        (fun p => degAt (anonymize_degree_sequence [(3, 0), (3, 1), (1, 2), (1, 3)] 2).2 p
          = degAt (anonymize_degree_sequence [(3, 0), (3, 1), (1, 2), (1, 3)] 2).2 j)).card) ∧
    (∀ b ∈ dpBlocks (degAt [(3, 0), (3, 1), (1, 2), (1, 3)]) 2
        ([(3, 0), (3, 1), (1, 2), (1, 3)] : List (ℕ × ℕ)).length, 2 ≤ b.2 + 1 - b.1) ∧
    (anonymize_degree_sequence [(3, 0), (3, 1), (1, 2), (1, 3)] 2).1
      = ((dpBlocks (degAt [(3, 0), (3, 1), (1, 2), (1, 3)]) 2
          ([(3, 0), (3, 1), (1, 2), (1, 3)] : List (ℕ × ℕ)).length).map
          (fun b => blockMaxDeg (degAt [(3, 0), (3, 1), (1, 2), (1, 3)]) b
            - blockMinDeg (degAt [(3, 0), (3, 1), (1, 2), (1, 3)]) b)).foldr max 0 :=
  claim_C3_anonymize_dp [(3, 0), (3, 1), (1, 2), (1, 3)] 2 (by decide) (by decide)
    (by decide)


/-- Claim C1: for every well-formed labelled graph and `alpha ≥ 0`, whenever
`hopeful(alpha)` or `greedy(alpha)` returns (models the loops terminating,
for any random draws and any shuffles that permute their input),
`is_alpha_proximal(alpha)` holds of the result, the edge count has not
decreased, and it is at most `n(n-1)/2`. -/
theorem claim_C1_engines_reach_proximity (g : Graph) (alpha : ℚ) (fuel : ℕ)
    (shuffles : ℕ → List (ℕ × ℕ) → List (ℕ × ℕ)) (draws : ℕ → List (ℕ × ℕ))
    (hwf : LWf g) (ha : 0 ≤ alpha)
    (hsh : ∀ t l, ∀ x ∈ shuffles t l, x ∈ l) :
    (∀ g1, g.hopeful alpha fuel draws = some g1 →
      g1.is_alpha_proximal alpha = true ∧ g.m ≤ g1.m ∧
        g1.m ≤ g1.n * (g1.n - 1) / 2 ∧ g1.n = g.n) ∧
    (∀ g1, g.greedy alpha fuel shuffles draws = some g1 →
      g1.is_alpha_proximal alpha = true ∧ g.m ≤ g1.m ∧
        g1.m ≤ g1.n * (g1.n - 1) / 2 ∧ g1.n = g.n) := by
  constructor
  · intro g1 h
    have hp := Graph.hopeful_post g alpha fuel draws g1 hwf h
    have hb := LWf_two_m_le g1 hp.1
    exact ⟨hp.2.2.2 ha, hp.2.1, by omega, hp.2.2.1⟩
  · intro g1 h
    have hp := Graph.greedy_post g alpha fuel shuffles draws g1 hwf hsh h
    have hb := LWf_two_m_le g1 hp.1
    exact ⟨hp.2.2.2 ha, hp.2.1, by omega, hp.2.2.1⟩

/-- Witness for C1: on the one-vertex graph with `alpha = 0`, both engines
return immediately and the result is alpha-proximal. -/
theorem claim_C1_engines_reach_proximity_witness :
    (⟨1, 1, fun _ => 0, fun _ => ∅, 0⟩ : Graph).is_alpha_proximal 0 = true ∧
    ((⟨1, 1, fun _ => 0, fun _ => ∅, 0⟩ : Graph).m
      ≤ (⟨1, 1, fun _ => 0, fun _ => ∅, 0⟩ : Graph).m) := by
  have hprox : (⟨1, 1, fun _ => 0, fun _ => ∅, 0⟩ : Graph).is_alpha_proximal 0 = true :=
    small_graph_proximal _ 0 (by decide) (by decide) (le_refl 0)
  have heq : (⟨1, 1, fun _ => 0, fun _ => ∅, 0⟩ : Graph).hopeful 0 1 (fun _ => [])
      = some ⟨1, 1, fun _ => 0, fun _ => ∅, 0⟩ := by
    unfold Graph.hopeful
    rw [if_pos hprox]
  have h := (claim_C1_engines_reach_proximity ⟨1, 1, fun _ => 0, fun _ => ∅, 0⟩ 0 1
    (fun _ => id) (fun _ => []) (by decide) (le_refl 0) (fun _ _ _ hx => hx)).1
    ⟨1, 1, fun _ => 0, fun _ => ∅, 0⟩ heq
  exact ⟨h.1, le_of_eq rfl⟩

/-- Claim C5: every graph-mutating operation preserves the adjacency
invariants (no self-loops, symmetry, in-range neighbours, and
`m = (Σ|adjacency[i]|)/2`): `add_edge` (both copies), `add_vertices`,
`populate_uniformly`, `hide_waldo` (both flag values), and the two
attribute-disclosure engines whenever they return. -/
theorem claim_C5_invariants_preserved :
    (∀ (g : UGraph) (u v : ℕ), UWf g → u < g.n → v < g.n → UWf (g.add_edge u v).1) ∧
    (∀ (g : UGraph) (c : ℕ), UWf g → UWf (g.add_vertices c)) ∧
    (∀ (g : UGraph) (e : ℕ) (sh : List (ℕ × ℕ) → List (ℕ × ℕ)),
      (∀ l, ∀ x ∈ sh l, x ∈ l) → UWf g → UWf (g.populate_uniformly e sh).1) ∧
    (∀ (b : Bool) (g : UGraph) (k : ℕ), UWf g → UWf (UGraph.hide_waldo b g k)) ∧
    (∀ (g : Graph) (u v : ℕ), LWf g → u < g.n → v < g.n → LWf (g.add_edge u v).1) ∧
    (∀ (g : Graph) (alpha : ℚ) (fuel : ℕ) (draws : ℕ → List (ℕ × ℕ)) (g1 : Graph),
      LWf g → g.hopeful alpha fuel draws = some g1 → LWf g1) ∧
    (∀ (g : Graph) (alpha : ℚ) (fuel : ℕ)
        (shuffles : ℕ → List (ℕ × ℕ) → List (ℕ × ℕ)) (draws : ℕ → List (ℕ × ℕ))
        (g1 : Graph),
      LWf g → (∀ t l, ∀ x ∈ shuffles t l, x ∈ l) →
        g.greedy alpha fuel shuffles draws = some g1 → LWf g1) := by
  refine ⟨?_, ?_, ?_, ?_, ?_, ?_, ?_⟩
  · exact fun g u v hwf hu hv => UGraph.add_edge_uwf g u v hwf hu hv
  · exact fun g c hwf => UGraph.add_vertices_uwf g c hwf
  · exact fun g e sh hsh hwf => (UGraph.populate_uniformly_uwf g e sh hsh hwf).1
  · exact fun b g k hwf => (UGraph.hide_waldo_uwf b g k hwf).1
  · exact fun g u v hwf hu hv => Graph.add_edge_lwf g u v hwf hu hv
  · exact fun g alpha fuel draws g1 hwf h =>
      (Graph.hopeful_post g alpha fuel draws g1 hwf h).1
  · exact fun g alpha fuel shuffles draws g1 hwf hsh h =>
      (Graph.greedy_post g alpha fuel shuffles draws g1 hwf hsh h).1

/-- Witness for C5 at concrete inputs: inserting an edge into the empty
2-vertex graph, adding a vertex to it, and hiding Waldo on the 3-path all
preserve the invariant. -/
theorem claim_C5_invariants_preserved_witness :
    UWf (gE2.add_edge 0 1).1 ∧ UWf (gE2.add_vertices 1) ∧
      UWf (UGraph.hide_waldo false gP3 2) := by
  exact ⟨claim_C5_invariants_preserved.1 gE2 0 1 (by decide) (by decide) (by decide),
    claim_C5_invariants_preserved.2.1 gE2 1 (by decide),
    claim_C5_invariants_preserved.2.2.2.1 false gP3 2 (by decide)⟩

end GraphAnon
